import Mathlib

/-
  Verification of the MCTS search engine of this repository
  (src/mcts_vanilla.py and src/mcts_modified.py).

  The embedding is a shallow one:

  * The search tree is an arena: a list of nodes addressed by index, with
    the root at index 0.  Parent pointers and the child dictionary store
    indices.  This mirrors the Python object graph exactly (one node object
    per expansion, parent back-references, an insertion-ordered dict of
    children) while staying purely functional.
  * The game adapter (p2_t3.Board) is external to the repository and is a
    parameter: an opaque record of the five queries of the interface.
  * random.choice is modelled by an external stream of numbers rng together
    with a running index k: the call consuming stream entry k picks the
    element at position rng k mod length.
  * Python exceptions are an explicit error type Err; each constructor
    documents which concrete Python exception it stands for.
  * while loops and the traversal recursion take an explicit fuel argument
    (a model artifact; running out of fuel is the distinguished error
    Err.fuelOut, never silently a value).
  * Floating point arithmetic of the ucb formula is modelled over the real
    numbers.  So that the surrounding search loop stays executable, the
    traversal is parametric in the numeric scorer; instantiating the scorer
    with the real-valued ucb recovers the source composition.
-/

namespace MCTS

/-- A search tree node.  Modelled from the spec: the MCTSNode class lives in
mcts_node.py, which is not part of the two files under src/; its fields and
its zero-statistics construction are fixed by spec sections 3 and 4.3
(parent back-reference, parent_action, dict of children, untried_actions,
visits and wins starting at zero). -/
structure NodeData (α : Type) where
  parent : Option Nat
  parent_action : Option α
  child_nodes : List (α × Nat)
  untried_actions : List α
  visits : Nat
  wins : Nat
deriving DecidableEq

/-- The arena holding the search tree; the root is at index 0. -/
abbrev Tree (α : Type) := List (NodeData α)

/-- The external game adapter interface (spec section 6); consumed, never
reimplemented, so the search core is parametric over it.  next_state may
return none (the null dead-end of section 7); points_values returns none on
states it considers non-terminal. -/
structure Board (σ α : Type) where
  current_player : σ → Nat
  legal_actions : σ → List α
  next_state : σ → α → Option σ
  is_ended : σ → Bool
  points_values : σ → Option (Nat → Int)

/-- Runtime failures of the embedded code; each constructor names the Python
behaviour it models. -/
inductive Err where
  /-- ZeroDivisionError on wins / visits with visits = 0, or the
  math domain error of math.log(0): the undefined-ucb branch. -/
  | ucbZeroVisit
  /-- ZeroDivisionError on wins / visits inside get_best_action. -/
  | zeroDivWinRate
  /-- IndexError of random.choice on an empty list. -/
  | choiceEmpty
  /-- The AssertionError of is_win on a state without an outcome. -/
  | assertNonTerminal
  /-- AttributeError: reading parent_action of the None best pick in
  get_best_action when the root has no children. -/
  | attrNoneParentAction
  /-- A None game state was handed to an adapter query: the source passes
  the None returned by next_state onward (outside the rollout loop, which
  checks it) and the next adapter call on it raises. -/
  | nullState
  /-- Model artifact: a loop or recursion ran out of fuel. -/
  | fuelOut
  /-- Model artifact: a malformed arena access (never reached on trees
  built by the search itself). -/
  | badIndex
deriving DecidableEq

/-- random.choice l, consuming entry r of the external randomness stream;
none models the IndexError on an empty list. -/
def choice {α : Type} (l : List α) (r : Nat) : Option α :=
  l[r % l.length]?

/-- Replace the node at index i (identity outside the range). -/
def modifyAt {β : Type} : List β → Nat → (β → β) → List β
  | [], _, _ => []
  | x :: xs, 0, f => f x :: xs
  | x :: xs, n+1, f => x :: modifyAt xs n f

/-- Arena lookup with the model-artifact error. -/
def getNode {α : Type} (t : Tree α) (i : Nat) : Except Err (NodeData α) :=
  match t[i]? with
  | some nd => .ok nd
  | none => .error .badIndex

/-- The running-best fold shared by traversal and by final selection
(mcts_vanilla.py lines 28-33 and 129-133): the best starts at (0, None) and
a candidate whose value is greater than or equal to the running best
replaces it — the source comparison val >= best[0]. -/
def pickStep {S β : Type} [LinearOrder S] (best : S × Option β) (vc : S × β) :
    S × Option β :=
  if best.1 ≤ vc.1 then (vc.1, some vc.2) else best

def pickBest {S β : Type} [LinearOrder S] [Zero S] (l : List (S × β)) :
    S × Option β :=
  l.foldl pickStep ((0 : S), (none : Option β))

/-- Exploration constant; both source files set explore_faction = 2. -/
noncomputable def explore_faction : ℝ := 2

/-- The ucb computation (mcts_vanilla.py lines 103-118, textually identical
in mcts_modified.py lines 130-145), statement for statement: win rate,
inverted for opponent nodes, plus the exploration term.  Real-valued model
of the Python float arithmetic; the zero-visit domain errors are made
explicit separately in ucbE. -/
noncomputable def ucb (wins visits parent_visits : ℕ) (is_opponent : Bool) : ℝ :=
  let ucb_val : ℝ := (wins : ℝ) / (visits : ℝ)
  let ucb_val : ℝ := if is_opponent then 1 - ucb_val else ucb_val
  ucb_val + explore_faction * Real.sqrt (Real.log (parent_visits : ℝ) / (visits : ℝ))

/-- The ucb value exactly as the spec words it (spec section 4.1): the
win-rate term, inverted to 1 - winRate when is_opponent, plus
C * sqrt(ln(parent visits) / visits) with C = 2, and nothing else (no
clamping). -/
noncomputable def ucbSpec (wins visits parent_visits : ℕ) (is_opponent : Bool) : ℝ :=
  (if is_opponent then 1 - (wins : ℝ) / (visits : ℝ) else (wins : ℝ) / (visits : ℝ))
    + 2 * Real.sqrt (Real.log (parent_visits : ℝ) / (visits : ℝ))

/-- The ucb call as made during traversal, with its precondition explicit:
visits = 0 is the ZeroDivisionError of wins / visits, parent visits = 0 is
the math domain error of math.log (both Err.ucbZeroVisit); a missing parent
would be an AttributeError on None (Err.badIndex; ucb is only ever called
on child nodes, which have parents).  The numeric value is delegated to the
scorer argument (wins, visits, parent visits, is_opponent), keeping the
search executable; scorer := ucb recovers the source. -/
def ucbE {α S : Type} (scorer : ℕ → ℕ → ℕ → Bool → S) (t : Tree α)
    (nd : NodeData α) (is_opponent : Bool) : Except Err S :=
  if nd.visits = 0 then .error .ucbZeroVisit
  else
    match nd.parent with
    | none => .error .badIndex
    | some p =>
      match t[p]? with
      | none => .error .badIndex
      | some pd =>
        if pd.visits = 0 then .error .ucbZeroVisit
        else .ok (scorer nd.wins nd.visits pd.visits is_opponent)

/-- The body of the for loop of traverse_nodes (lines 29-33): the opponent
flag is recomputed from the live state for each child, then the child's ucb
value is computed.  Scoring all children first and folding with pickBest
afterwards is observationally equal to the interleaved source loop: the
same first exception propagates and the same best child results. -/
def scoreChildren {σ α S : Type} (scorer : ℕ → ℕ → ℕ → Bool → S)
    (b : Board σ α) (bot_identity : ℕ) (t : Tree α) (s : σ) :
    List (α × Nat) → Except Err (List (S × Nat))
  | [] => .ok []
  | (_, ci) :: rest =>
    match getNode t ci with
    | .error e => .error e
    | .ok cd =>
      match ucbE scorer t cd (decide (b.current_player s ≠ bot_identity)) with
      | .error e => .error e
      | .ok val =>
        match scoreChildren scorer b bot_identity t s rest with
        | .error e => .error e
        | .ok tail => .ok ((val, ci) :: tail)

/-- traverse_nodes (mcts_vanilla.py lines 9-39, identical in
mcts_modified.py): stop at a node with untried actions; otherwise score the
children, descend into the best one with the state advanced by the adapter.
fuel bounds the recursion (the source recursion is bounded by the tree
depth).  A none result of next_state here is Err.nullState: the source
binds the None and the adapter queries inside the recursive call raise. -/
def traverse_nodes {σ α S : Type} [LinearOrder S] [Zero S]
    (scorer : ℕ → ℕ → ℕ → Bool → S) (b : Board σ α) (bot_identity : ℕ) :
    ℕ → Tree α → ℕ → σ → Except Err (ℕ × σ)
  | 0, _, _, _ => .error .fuelOut
  | fuel+1, t, i, s =>
    match getNode t i with
    | .error e => .error e
    | .ok nd =>
      if 0 < nd.untried_actions.length then .ok (i, s)
      else
        match scoreChildren scorer b bot_identity t s nd.child_nodes with
        | .error e => .error e
        | .ok scored =>
          match (pickBest scored).2 with
          | none => .ok (i, s)
          | some ci =>
            match getNode t ci with
            | .error e => .error e
            | .ok cd =>
              match cd.parent_action with
              | none => .error .badIndex
              | some a =>
                match b.next_state s a with
                | none => .error .nullState
                | some s' => traverse_nodes scorer b bot_identity fuel t ci s'

/-- Python dict assignment child_nodes[key] = v: overwrite in place when the
key is present (keeping its position), append otherwise. -/
def dictUpd {α : Type} [DecidableEq α] (l : List (α × Nat)) (a : α) (v : Nat) :
    List (α × Nat) :=
  if l.any (fun p => p.1 = a) then
    l.map (fun p => if p.1 = a then (a, v) else p)
  else l ++ [(a, v)]

/-- expand_leaf (mcts_vanilla.py lines 42-64, identical in
mcts_modified.py): on a non-terminal state with untried actions, pick one
untried action at random, remove it, transition, and append a fresh child
node; otherwise a no-op returning the same node and state.  The fresh node
has zero statistics — modelled from the spec (sections 3 and 4.3), the
MCTSNode constructor not being under src/.  A none from next_state is
Err.nullState: the source would call legal_actions(None) next. -/
def expand_leaf {σ α : Type} [DecidableEq α] (b : Board σ α) (rng : ℕ → ℕ)
    (t : Tree α) (i : ℕ) (s : σ) (k : ℕ) :
    Except Err (Tree α × ℕ × σ × ℕ) :=
  match getNode t i with
  | .error e => .error e
  | .ok nd =>
    if b.is_ended s = false ∧ 0 < nd.untried_actions.length then
      match choice nd.untried_actions (rng k) with
      | none => .error .choiceEmpty
      | some new_action =>
        match b.next_state s new_action with
        | none => .error .nullState
        | some new_state =>
          let new_node : NodeData α :=
            ⟨some i, some new_action, [], b.legal_actions new_state, 0, 0⟩
          let t' := modifyAt t i (fun m =>
            { m with
                untried_actions := m.untried_actions.erase new_action,
                child_nodes := dictUpd m.child_nodes new_action t.length })
          .ok (t' ++ [new_node], t.length, new_state, k + 1)
    else .ok (t, i, s, k)

/-- The statistics update of one backpropagation step (mcts_vanilla.py
lines 96-98): wins first when won, then visits. -/
def bump {α : Type} (won : Bool) (nd : NodeData α) : NodeData α :=
  { nd with
      wins := nd.wins + (if won then 1 else 0),
      visits := nd.visits + 1 }

/-- backpropagate (mcts_vanilla.py lines 87-100, identical in
mcts_modified.py): walk parent links from the given node, bumping the
statistics of every node passed.  fuel is a model artifact; on the arenas
the search builds, parent indices strictly decrease, so fuel = tree size
always suffices. -/
def backpropagate {α : Type} : ℕ → Tree α → Option ℕ → Bool → Tree α
  | 0, t, _, _ => t
  | _+1, t, none, _ => t
  | fuel+1, t, some i, won =>
    match t[i]? with
    | none => t
    | some nd => backpropagate fuel (modifyAt t i (bump won)) nd.parent won

/-- The indices one backpropagate call touches, in order. -/
def bpPath {α : Type} : ℕ → Tree α → Option ℕ → List ℕ
  | 0, _, _ => []
  | _+1, _, none => []
  | fuel+1, t, some i =>
    match t[i]? with
    | none => []
    | some nd => i :: bpPath fuel t nd.parent

/-- is_win (mcts_vanilla.py lines 138-142, identical in mcts_modified.py):
look up the outcome mapping; the assert on a missing outcome is the
AssertionError branch; otherwise compare the bot's outcome against 1. -/
def is_win {σ α : Type} (b : Board σ α) (s : σ) (identity_of_bot : ℕ) :
    Except Err Bool :=
  match b.points_values s with
  | none => .error .assertNonTerminal
  | some outcome => .ok (outcome identity_of_bot == 1)

namespace Vanilla

/-- The iteration budget of the vanilla variant (mcts_vanilla.py line 6). -/
def num_nodes : ℕ := 100

/-- rollout (mcts_vanilla.py lines 67-84): while the state is not terminal,
pick a uniformly random legal action and transition; a none from next_state
silently breaks the loop at the current state.  Returns the final state and
the advanced randomness index. -/
def rollout {σ α : Type} (b : Board σ α) (rng : ℕ → ℕ) :
    ℕ → ℕ → σ → Except Err (σ × ℕ)
  | 0, _, _ => .error .fuelOut
  | fuel+1, k, s =>
    if b.is_ended s then .ok (s, k)
    else
      match choice (b.legal_actions s) (rng k) with
      | none => .error .choiceEmpty
      | some new_action =>
        match b.next_state s new_action with
        | none => .ok (s, k + 1)
        | some s' => rollout b rng fuel (k + 1) s'

/-- One simulation of the vanilla variant exactly as composed by think
(mcts_vanilla.py lines 166-167): rollout, then is_win on the reached state.
The Unit component is the absence of cross-iteration state. -/
def sim {σ α : Type} (b : Board σ α) (rng : ℕ → ℕ) (rfuel bot_identity k : ℕ)
    (u : Unit) (s : σ) : Except Err (Bool × ℕ × Unit) :=
  match rollout b rng rfuel k s with
  | .error e => .error e
  | .ok (rollout_state, k') =>
    match is_win b rollout_state bot_identity with
    | .error e => .error e
    | .ok win => .ok (win, k', u)

end Vanilla

namespace Modified

/-- The iteration budget of the enhanced variant (mcts_modified.py line 6). -/
def num_nodes : ℕ := 900

/-- The last_good_replies table (mcts_modified.py line 9): a Python dict
from action to action, modelled as a partial map. -/
def Table (α : Type) : Type := α → Option α

/-- Dict assignment last_good_replies[key] = val. -/
def tableSet {α : Type} [DecidableEq α] (tbl : Table α) (key val : α) :
    Table α :=
  fun x => if x = key then some val else tbl x

/-- The action selection of one playout step (mcts_modified.py lines 84-89):
the remembered reply to the previous action when one exists and is legal in
the current state, else uniform random choice (none only on an empty legal
list).  The returned number is the advanced randomness index. -/
def selectAction {σ α : Type} [DecidableEq α] (b : Board σ α) (rng : ℕ → ℕ)
    (tbl : Table α) (k : ℕ) (s : σ) (prev_action : Option α) :
    Option (α × ℕ) :=
  match prev_action with
  | some pa =>
    match tbl pa with
    | some rep =>
      if rep ∈ b.legal_actions s then some (rep, k)
      else
        match choice (b.legal_actions s) (rng k) with
        | none => none
        | some a => some (a, k + 1)
    | none =>
      match choice (b.legal_actions s) (rng k) with
      | none => none
      | some a => some (a, k + 1)
  | none =>
    match choice (b.legal_actions s) (rng k) with
    | none => none
    | some a => some (a, k + 1)

/-- The playout while loop of the enhanced rollout (mcts_modified.py lines
83-95): select an action (reply-biased), transition; on a successful
transition, append (new_action, current_player of the state just reached)
to action_used and remember new_action as the previous action; a none from
next_state breaks silently. -/
def rolloutLoop {σ α : Type} [DecidableEq α] (b : Board σ α) (rng : ℕ → ℕ)
    (tbl : Table α) :
    ℕ → ℕ → σ → Option α → List (α × ℕ) → Except Err (σ × ℕ × List (α × ℕ))
  | 0, _, _, _, _ => .error .fuelOut
  | fuel+1, k, s, prev_action, action_used =>
    if b.is_ended s then .ok (s, k, action_used)
    else
      match selectAction b rng tbl k s prev_action with
      | none => .error .choiceEmpty
      | some (new_action, k') =>
        match b.next_state s new_action with
        | none => .ok (s, k', action_used)
        | some s' =>
          rolloutLoop b rng tbl fuel k' s' (some new_action)
            (action_used ++ [(new_action, b.current_player s')])

/-- The table update loop of the enhanced rollout (mcts_modified.py lines
101-108), written over the reversed history: popping from the end of
action_used is taking the head of the reversed list.  Pop the most recent
(action, mover); a mover different from the winner is discarded; otherwise
pop the preceding pair as well (stopping if there is none) and record
table[preceding action] = action. -/
def lgrUpdateRev {α : Type} [DecidableEq α] :
    List (α × ℕ) → ℕ → Table α → Table α
  | [], _, tbl => tbl
  | (a, m) :: rest, winning_bot, tbl =>
    if m ≠ winning_bot then lgrUpdateRev rest winning_bot tbl
    else
      match rest with
      | [] => tbl
      | (pa, _) :: rest' => lgrUpdateRev rest' winning_bot (tableSet tbl pa a)

/-- The whole table update on the recorded history. -/
def lgrUpdate {α : Type} [DecidableEq α] (action_used : List (α × ℕ))
    (winning_bot : ℕ) (tbl : Table α) : Table α :=
  lgrUpdateRev action_used.reverse winning_bot tbl

/-- rollout of the enhanced variant (mcts_modified.py lines 69-110): the
playout loop from an empty history, then is_win, the winner identity with
the wrap back to 1 past 2, and the table update. -/
def rollout {σ α : Type} [DecidableEq α] (b : Board σ α) (rng : ℕ → ℕ)
    (rfuel bot_identity k : ℕ) (tbl : Table α) (s : σ) :
    Except Err (σ × Bool × ℕ × Table α) :=
  match rolloutLoop b rng tbl rfuel k s none [] with
  | .error e => .error e
  | .ok (rs, k', action_used) =>
    match is_win b rs bot_identity with
    | .error e => .error e
    | .ok we_won =>
      let w0 := if we_won then bot_identity else bot_identity + 1
      let winning_bot := if w0 ≤ 2 then w0 else 1
      .ok (rs, we_won, k', lgrUpdate action_used winning_bot tbl)

/-- One simulation of the enhanced variant as composed by think
(mcts_modified.py line 194): the biased rollout, whose win flag feeds
backpropagation and whose updated table is the cross-iteration state. -/
def sim {σ α : Type} [DecidableEq α] (b : Board σ α) (rng : ℕ → ℕ)
    (rfuel bot_identity k : ℕ) (tbl : Table α) (s : σ) :
    Except Err (Bool × ℕ × Table α) :=
  match rollout b rng rfuel bot_identity k tbl s with
  | .error e => .error e
  | .ok (_, win, k', tbl') => .ok (win, k', tbl')

end Modified

/-- The win-rate scoring loop of get_best_action (lines 130-133): wins over
visits as exact rationals; a zero-visit child would be the Python
ZeroDivisionError. -/
def scoreChildrenWinRate {α : Type} (t : Tree α) :
    List (α × Nat) → Except Err (List (ℚ × Nat))
  | [] => .ok []
  | (_, ci) :: rest =>
    match getNode t ci with
    | .error e => .error e
    | .ok cd =>
      if cd.visits = 0 then .error .zeroDivWinRate
      else
        match scoreChildrenWinRate t rest with
        | .error e => .error e
        | .ok tail => .ok (((cd.wins : ℚ) / (cd.visits : ℚ), ci) :: tail)

/-- get_best_action (mcts_vanilla.py lines 120-135, identical in
mcts_modified.py): running-best fold over the root's children by win rate,
then the parent_action of the pick.  With no children the pick stays None
and reading parent_action of it is the AttributeError,
Err.attrNoneParentAction. -/
def get_best_action {α : Type} (t : Tree α) : Except Err α :=
  match getNode t 0 with
  | .error e => .error e
  | .ok root_node =>
    match scoreChildrenWinRate t root_node.child_nodes with
    | .error e => .error e
    | .ok scored =>
      match (pickBest scored).2 with
      | none => .error .attrNoneParentAction
      | some ci =>
        match getNode t ci with
        | .error e => .error e
        | .ok cd =>
          match cd.parent_action with
          | some a => .ok a
          | none => .error .badIndex

/-- One iteration of the think loop (mcts_vanilla.py lines 158-168,
mcts_modified.py lines 186-195): traversal from the root, expansion,
the variant's simulation (abstracted as sim, carrying the randomness index
and the cross-iteration state r), then backpropagation from the node the
expansion returned. -/
def iteration {σ α S ρ : Type} [DecidableEq α] [LinearOrder S] [Zero S]
    (scorer : ℕ → ℕ → ℕ → Bool → S) (b : Board σ α) (rng : ℕ → ℕ)
    (sim : ℕ → ρ → σ → Except Err (Bool × ℕ × ρ)) (bot_identity : ℕ)
    (current_state : σ) (t : Tree α) (k : ℕ) (r : ρ) :
    Except Err (Tree α × ℕ × ρ) :=
  match traverse_nodes scorer b bot_identity (t.length + 1) t 0 current_state with
  | .error e => .error e
  | .ok (i, s) =>
    match expand_leaf b rng t i s k with
    | .error e => .error e
    | .ok (t', i', s', k') =>
      match sim k' r s' with
      | .error e => .error e
      | .ok (won, k'', r') =>
        .ok (backpropagate t'.length t' (some i') won, k'', r')

/-- The fixed-budget loop of think: n iterations, threading the tree, the
randomness index and the cross-iteration state. -/
def thinkLoop {σ α S ρ : Type} [DecidableEq α] [LinearOrder S] [Zero S]
    (scorer : ℕ → ℕ → ℕ → Bool → S) (b : Board σ α) (rng : ℕ → ℕ)
    (sim : ℕ → ρ → σ → Except Err (Bool × ℕ × ρ)) (bot_identity : ℕ)
    (current_state : σ) :
    ℕ → Tree α → ℕ → ρ → Except Err (Tree α × ℕ × ρ)
  | 0, t, k, r => .ok (t, k, r)
  | n+1, t, k, r =>
    match iteration scorer b rng sim bot_identity current_state t k r with
    | .error e => .error e
    | .ok (t', k', r') =>
      thinkLoop scorer b rng sim bot_identity current_state n t' k' r'

/-- think without the final action extraction (mcts_vanilla.py lines
145-168): the searching identity is the mover of the current state, the
root node starts with the legal actions as untried_actions and zero
statistics, and the budget loop runs from it.  sim receives the searching
identity first. -/
def thinkCore {σ α S ρ : Type} [DecidableEq α] [LinearOrder S] [Zero S]
    (scorer : ℕ → ℕ → ℕ → Bool → S) (b : Board σ α) (rng : ℕ → ℕ)
    (sim : ℕ → ℕ → ρ → σ → Except Err (Bool × ℕ × ρ))
    (n : ℕ) (r0 : ρ) (current_state : σ) : Except Err (Tree α × ℕ × ρ) :=
  let bot_identity := b.current_player current_state
  let root_node : NodeData α :=
    ⟨none, none, [], b.legal_actions current_state, 0, 0⟩
  thinkLoop scorer b rng (sim bot_identity) bot_identity current_state
    n [root_node] 0 r0

/-- think of the vanilla variant (mcts_vanilla.py lines 145-175): the
num_nodes-iteration search with the real ucb scorer and the uniformly
random rollout, then get_best_action on the resulting tree.  rfuel bounds
the playout loops (model artifact). -/
noncomputable def Vanilla.think {σ α : Type} [DecidableEq α] (b : Board σ α)
    (rng : ℕ → ℕ) (rfuel : ℕ) (current_state : σ) : Except Err α :=
  match thinkCore ucb b rng
      (fun bot k u s => Vanilla.sim b rng rfuel bot k u s)
      Vanilla.num_nodes () current_state with
  | .error e => .error e
  | .ok (t, _, _) => get_best_action t

/-- think of the enhanced variant (mcts_modified.py lines 173-202): as the
vanilla one but with the reply-biased rollout; the process-wide
last_good_replies table enters as tbl and the updated table is returned
alongside the chosen action. -/
noncomputable def Modified.think {σ α : Type} [DecidableEq α] (b : Board σ α)
    (rng : ℕ → ℕ) (rfuel : ℕ) (tbl : Modified.Table α) (current_state : σ) :
    Except Err (α × Modified.Table α) :=
  match thinkCore ucb b rng
      (fun bot k r s => Modified.sim b rng rfuel bot k r s)
      Modified.num_nodes tbl current_state with
  | .error e => .error e
  | .ok (t, _, tbl') =>
    match get_best_action t with
    | .error e => .error e
    | .ok a => .ok (a, tbl')

/-- Whether an Except result is a success. -/
def isOk {ε β : Type} : Except ε β → Bool
  | .ok _ => true
  | .error _ => false

/-- The visit count of the root after a successful search. -/
def rootVisitsAfter {α ρ : Type} (r : Except Err (Tree α × ℕ × ρ)) :
    Option ℕ :=
  match r with
  | .ok (t, _, _) => (t[0]?).map (fun nd => nd.visits)
  | .error _ => none

/-! Concrete fixtures used to witness the theorems below: tiny game
adapters (instances of the external interface, not repository code) and a
constant randomness stream. -/

/-- The all-zeros randomness stream. -/
def rng0 : ℕ → ℕ := fun _ => 0

/-- A constant rational scorer; the search theorems below hold for every
scorer, and a computable one lets witnesses evaluate the loop. -/
def zeroScore : ℕ → ℕ → ℕ → Bool → ℚ := fun _ _ _ _ => 0

/-- A dead-end adapter: from state 0 the only action leads to state 1; from
state 1 the only transition returns none; no state is terminal and no state
has an outcome. -/
def DeadBoard : Board ℕ ℕ where
  current_player := fun _ => 1
  legal_actions := fun s => if s = 0 then [7] else [8]
  next_state := fun s a => if s = 0 ∧ a = 7 then some 1 else none
  is_ended := fun _ => false
  points_values := fun _ => none

/-- An adapter whose every state is terminal with a win for identity 1. -/
def TerminalBoard : Board ℕ ℕ where
  current_player := fun _ => 1
  legal_actions := fun _ => []
  next_state := fun _ _ => none
  is_ended := fun _ => true
  points_values := fun _ => some (fun i => if i = 1 then 1 else -1)

/-- A two-step adapter: 0 steps to 1 by action 10, 1 steps to 2 by action
11, 2 is terminal and won by identity 2; current_player of a state is the
state itself, making the mover recorded by the enhanced rollout visible. -/
def WalkBoard : Board ℕ ℕ where
  current_player := fun s => s
  legal_actions := fun s => if s = 0 then [10] else if s = 1 then [11] else []
  next_state := fun s a =>
    if s = 0 ∧ a = 10 then some 1 else if s = 1 ∧ a = 11 then some 2 else none
  is_ended := fun s => decide (2 ≤ s)
  points_values := fun s =>
    if 2 ≤ s then some (fun i => if i = 2 then 1 else -1) else none

/-- A concrete three-node chain (root, child, grandchild) for witnessing
the backpropagation theorems. -/
def T3 : Tree ℕ :=
  [⟨none, none, [(5, 1)], [], 3, 1⟩,
   ⟨some 0, some 5, [(6, 2)], [], 2, 1⟩,
   ⟨some 1, some 6, [], [], 1, 1⟩]

/-- Well-formedness of a search arena, as established at the start of every
iteration: the root exists; every child edge goes to a later index holding
a node whose parent pointer comes back and that has been visited at least
once; parent indices strictly decrease; exactly the root is parentless; and
a node with children has been visited. -/
structure Inv {α : Type} (t : Tree α) : Prop where
  nonempty : 0 < t.length
  child_wf : ∀ (i ci : ℕ) (nd : NodeData α) (a : α),
      t[i]? = some nd → (a, ci) ∈ nd.child_nodes →
      i < ci ∧ ∃ cd : NodeData α,
        t[ci]? = some cd ∧ cd.parent = some i ∧ 1 ≤ cd.visits
  parent_lt : ∀ (i p : ℕ) (nd : NodeData α),
      t[i]? = some nd → nd.parent = some p → p < i
  root_iff : ∀ (i : ℕ) (nd : NodeData α),
      t[i]? = some nd → (nd.parent = none ↔ i = 0)
  haschild : ∀ (i : ℕ) (nd : NodeData α),
      t[i]? = some nd → nd.child_nodes ≠ [] → 1 ≤ nd.visits

/-! ### Basic lemmas about the arena primitives -/

theorem modifyAt_length {β : Type} (t : List β) (i : ℕ) (f : β → β) :
    (modifyAt t i f).length = t.length := by
  induction t generalizing i with
  | nil => rfl
  | cons x xs ih => cases i <;> simp [modifyAt, ih]

theorem getElem?_modifyAt {β : Type} (t : List β) (i j : ℕ) (f : β → β) :
    (modifyAt t i f)[j]? = if i = j then (t[j]?).map f else t[j]? := by
  induction t generalizing i j with
  | nil => simp [modifyAt]
  | cons x xs ih =>
    cases i with
    | zero => cases j <;> simp [modifyAt]
    | succ i =>
      cases j with
      | zero => simp [modifyAt]
      | succ j => simpa [modifyAt] using ih i j

/-! ### Lemmas about the running-best fold -/

theorem foldl_pickStep_fst_le {S β : Type} [LinearOrder S] (v : S) :
    ∀ (l : List (S × β)) (init : S × Option β), init.1 ≤ v →
      (∀ x ∈ l, x.1 ≤ v) → (l.foldl pickStep init).1 ≤ v := by
  intro l
  induction l with
  | nil => intro init h _; simpa using h
  | cons x xs ih =>
    intro init h hall
    simp only [List.foldl_cons]
    refine ih _ ?_ (fun y hy => hall y (by simp [hy]))
    unfold pickStep
    split
    · exact hall x (by simp)
    · exact h

theorem foldl_pickStep_const {S β : Type} [LinearOrder S] (v : S)
    (o : Option β) :
    ∀ l : List (S × β), (∀ x ∈ l, x.1 < v) →
      l.foldl pickStep (v, o) = (v, o) := by
  intro l
  induction l with
  | nil => intro _; rfl
  | cons x xs ih =>
    intro hall
    simp only [List.foldl_cons]
    have hstep : pickStep (v, o) x = (v, o) := by
      unfold pickStep
      exact if_neg (not_le.mpr (hall x (by simp)))
    rw [hstep]
    exact ih (fun y hy => hall y (by simp [hy]))

theorem foldl_pickStep_mem {S β : Type} [LinearOrder S] :
    ∀ (l : List (S × β)) (init : S × Option β) (c : β),
      (l.foldl pickStep init).2 = some c →
      (∃ v, (v, c) ∈ l) ∨ init.2 = some c := by
  intro l
  induction l with
  | nil => intro init c h; exact Or.inr h
  | cons x xs ih =>
    intro init c h
    simp only [List.foldl_cons] at h
    rcases ih _ c h with ⟨v, hv⟩ | hh
    · exact Or.inl ⟨v, by simp [hv]⟩
    · unfold pickStep at hh
      split at hh
      · simp only [Option.some.injEq] at hh
        subst hh
        exact Or.inl ⟨x.1, by simp⟩
      · exact Or.inr hh

/-! ### Claims C6, C8, C4, C3, C1, C2 -/

/-- C6: in both the traversal comparison and the final selection the
running-best fold starts at (0, None) and replaces the best on a value
greater than or equal to it, so among candidates attaining the maximal
value (at least 0) the last-iterated one is selected: whatever comes before
the last maximal candidate scores at most its value, whatever comes after
scores strictly less, and the fold picks exactly that candidate. -/
theorem c6_tie_break_last_seen_wins {S β : Type} [LinearOrder S] [Zero S]
    (l1 l2 : List (S × β)) (v : S) (c : β)
    (h1 : ∀ x ∈ l1, x.1 ≤ v) (h2 : ∀ x ∈ l2, x.1 < v) (h0 : (0 : S) ≤ v) :
    (pickBest (l1 ++ (v, c) :: l2)).2 = some c := by
  unfold pickBest
  rw [List.foldl_append]
  have hfst : (l1.foldl pickStep ((0 : S), (none : Option β))).1 ≤ v :=
    foldl_pickStep_fst_le v l1 _ h0 h1
  simp only [List.foldl_cons]
  have hstep :
      pickStep (l1.foldl pickStep ((0 : S), (none : Option β))) (v, c)
        = (v, some c) := by
    unfold pickStep
    exact if_pos hfst
  rw [hstep, foldl_pickStep_const v (some c) l2 h2]

/-- C6 witness: two siblings with identical scores; the second-iterated one
is picked. -/
theorem c6_witness :
    (∀ x ∈ [((1 : ℚ), (10 : ℕ))], x.1 ≤ 1) ∧ ((0 : ℚ) ≤ 1) ∧
      (pickBest [((1 : ℚ), (10 : ℕ)), ((1 : ℚ), (20 : ℕ))]).2 = some 20 :=
  ⟨by decide, by decide,
    c6_tie_break_last_seen_wins [((1 : ℚ), (10 : ℕ))] [] 1 20
      (by decide) (by decide) (by decide)⟩

/-- C8: for positive visit counts of the node and of its parent, the ucb
computation equals the spec formula: the win rate (inverted when
is_opponent) plus C * sqrt(ln(parent visits) / visits) with C the
exploration constant 2, and nothing more (no clamping). -/
theorem c8_ucb_formula :
    explore_faction = 2 ∧
      ∀ (w v pv : ℕ) (o : Bool), 0 < v → 0 < pv →
        ucb w v pv o = ucbSpec w v pv o := by
  refine ⟨rfl, ?_⟩
  intro w v pv o _ _
  cases o <;> rfl

/-- C8 witness at wins 1, visits 2, parent visits 3, opponent node. -/
theorem c8_witness :
    0 < 2 ∧ 0 < 3 ∧ ucb 1 2 3 true = ucbSpec 1 2 3 true :=
  ⟨by decide, by decide, c8_ucb_formula.2 1 2 3 true (by decide) (by decide)⟩

/-- C4 counterexample: on a root with an empty child set, get_best_action
fails by dereferencing the None best pick (the AttributeError on reading
parent_action of None) — there is no explicit no-decidable-action error
anywhere in the code. -/
theorem c4_counterexample :
    get_best_action ([⟨none, none, [], [9], 5, 2⟩] : Tree ℕ)
      = .error .attrNoneParentAction := rfl

/-- C4 amended: whenever the root's child set is empty at decision time,
the driver fails rather than returning an action, but the failure is the
unhandled attribute error of reading parent_action from the None best pick,
not a purpose-built error. -/
theorem c4_no_child_failure {α : Type} (t : Tree α) (root : NodeData α)
    (h0 : t[0]? = some root) (hc : root.child_nodes = []) :
    get_best_action t = .error .attrNoneParentAction := by
  unfold get_best_action getNode
  rw [h0]
  simp [hc, scoreChildrenWinRate, pickBest]

/-- C4 witness: a concrete childless root. -/
theorem c4_witness :
    (([⟨none, none, [], [], 7, 7⟩] : Tree ℕ)[0]?
        = some ⟨none, none, [], [], 7, 7⟩) ∧
      get_best_action ([⟨none, none, [], [], 7, 7⟩] : Tree ℕ)
        = .error .attrNoneParentAction :=
  ⟨rfl, c4_no_child_failure _ _ rfl rfl⟩

/-- C3 counterexample: on DeadBoard, the playout from state 1 stops
silently at state 1 when next_state returns none — but state 1 has no
outcome, so scoring it raises the is_win assertion, and a 2-iteration
search loop aborts with that error instead of running its remaining
iteration unaffected. -/
theorem c3_counterexample :
    Vanilla.rollout DeadBoard rng0 9 0 1 = .ok (1, 1)
    ∧ is_win DeadBoard 1 1 = .error .assertNonTerminal
    ∧ thinkCore zeroScore DeadBoard rng0
        (fun bot k u s => Vanilla.sim DeadBoard rng0 9 bot k u s) 2 () 0
      = .error .assertNonTerminal :=
  ⟨rfl, rfl, rfl⟩

/-- C3 amended: when next_state returns none during a vanilla rollout, the
playout loop does stop silently at the last reached state; that state is
then scored by is_win, which succeeds exactly when the adapter reports an
outcome for it and otherwise raises the assertion (aborting the decision,
so later iterations do not run). -/
theorem c3_dead_end_behavior {σ α : Type} (b : Board σ α) (rng : ℕ → ℕ)
    (fuel k bot : ℕ) (a : α) (s : σ)
    (hend : b.is_ended s = false)
    (hchoice : choice (b.legal_actions s) (rng k) = some a)
    (hnext : b.next_state s a = none) :
    Vanilla.rollout b rng (fuel + 1) k s = .ok (s, k + 1)
    ∧ (b.points_values s = none →
        is_win b s bot = .error .assertNonTerminal)
    ∧ (∀ o, b.points_values s = some o → is_win b s bot = .ok (o bot == 1)) := by
  refine ⟨?_, ?_, ?_⟩
  · rw [Vanilla.rollout, hend]
    simp [hchoice, hnext]
  · intro hp
    simp [is_win, hp]
  · intro o hp
    simp [is_win, hp]

/-- C3 witness: the dead end of DeadBoard at state 1. -/
theorem c3_witness :
    DeadBoard.is_ended 1 = false
    ∧ choice (DeadBoard.legal_actions 1) (rng0 0) = some 8
    ∧ DeadBoard.next_state 1 8 = none
    ∧ (Vanilla.rollout DeadBoard rng0 4 0 1 = .ok (1, 1)
       ∧ (DeadBoard.points_values 1 = none →
           is_win DeadBoard 1 1 = .error .assertNonTerminal)
       ∧ (∀ o, DeadBoard.points_values 1 = some o →
           is_win DeadBoard 1 1 = .ok (o 1 == 1))) :=
  ⟨rfl, rfl, rfl, c3_dead_end_behavior DeadBoard rng0 3 0 1 8 1 rfl rfl rfl⟩

/-- C1 counterexample: on the 4-ply history of the claim (actions 1..4,
identities 1 and 2, winner 2) the table update does write an entry for the
first action: table[a1] = a2, contradicting that only table[a3] = a4 is
written. -/
theorem c1_counterexample :
    Modified.lgrUpdate [(1, 1), (2, 2), (3, 1), (4, 2)] 2
      (fun _ => (none : Option ℕ)) 1 = some 2 := by decide

/-- C1 amended: the update walks the history backward in pairs exactly as
claimed — the most recent pair is popped, a non-winner mover is discarded
without updating, a winner mover pops the preceding pair too (stopping if
there is none) and records table[precedingAction] = action — but the walk
then continues, so on the 4-ply history with the second mover winning it
records both table[a3] = a4 and table[a1] = a2 and touches no other key. -/
theorem c1_table_update {α : Type} [DecidableEq α] :
    (∀ (rest : List (α × ℕ)) (a : α) (m w : ℕ) (tbl : Modified.Table α),
        m ≠ w →
        Modified.lgrUpdateRev ((a, m) :: rest) w tbl
          = Modified.lgrUpdateRev rest w tbl)
    ∧ (∀ (rest : List (α × ℕ)) (a pa : α) (pm w : ℕ) (tbl : Modified.Table α),
        Modified.lgrUpdateRev ((a, w) :: (pa, pm) :: rest) w tbl
          = Modified.lgrUpdateRev rest w (Modified.tableSet tbl pa a))
    ∧ (∀ (a : α) (w : ℕ) (tbl : Modified.Table α),
        Modified.lgrUpdateRev [(a, w)] w tbl = tbl)
    ∧ (∀ (a1 a2 a3 a4 : α) (p1 p2 : ℕ) (tbl : Modified.Table α),
        p1 ≠ p2 → a1 ≠ a3 →
        Modified.lgrUpdate [(a1, p1), (a2, p2), (a3, p1), (a4, p2)] p2 tbl a3
            = some a4
        ∧ Modified.lgrUpdate [(a1, p1), (a2, p2), (a3, p1), (a4, p2)] p2 tbl a1
            = some a2
        ∧ ∀ x, x ≠ a1 → x ≠ a3 →
            Modified.lgrUpdate [(a1, p1), (a2, p2), (a3, p1), (a4, p2)] p2 tbl x
              = tbl x) := by
  refine ⟨?_, ?_, ?_, ?_⟩
  · intro rest a m w tbl hmw
    rw [Modified.lgrUpdateRev.eq_def]
    simp [hmw]
  · intro rest a pa pm w tbl
    rw [Modified.lgrUpdateRev.eq_def]
    simp
  · intro a w tbl
    rw [Modified.lgrUpdateRev.eq_def]
    simp
  · intro a1 a2 a3 a4 p1 p2 tbl hp h13
    have h31 : a3 ≠ a1 := Ne.symm h13
    refine ⟨?_, ?_, ?_⟩
    · simp [Modified.lgrUpdate, Modified.lgrUpdateRev, Modified.tableSet, h31]
    · simp [Modified.lgrUpdate, Modified.lgrUpdateRev, Modified.tableSet]
    · intro x hx1 hx3
      simp [Modified.lgrUpdate, Modified.lgrUpdateRev, Modified.tableSet,
        hx1, hx3]

/-- C1 witness: the concrete instantiation with actions 1..4, identities 1
and 2, winner 2, and the empty table. -/
theorem c1_witness :
    (1 : ℕ) ≠ 2 ∧ (1 : ℕ) ≠ 3
    ∧ (Modified.lgrUpdate [((1 : ℕ), 1), (2, 2), (3, 1), (4, 2)] 2
          (fun _ => none) 3 = some 4
       ∧ Modified.lgrUpdate [((1 : ℕ), 1), (2, 2), (3, 1), (4, 2)] 2
          (fun _ => none) 1 = some 2
       ∧ ∀ x, x ≠ 1 → x ≠ 3 →
          Modified.lgrUpdate [((1 : ℕ), 1), (2, 2), (3, 1), (4, 2)] 2
            (fun _ => none) x = (fun _ => (none : Option ℕ)) x) :=
  ⟨by decide, by decide,
    c1_table_update.2.2.2 1 2 3 4 1 2 (fun _ => none)
      (by decide) (by decide)⟩

/-- C2: every entry of the history recorded by the enhanced rollout pairs
the action with the current player of the state reached by applying that
action (the mover to act next), as read off the source appending
(new_action, current_player(state)) after the state update. -/
theorem c2_history_mover {σ α : Type} [DecidableEq α] (b : Board σ α)
    (rng : ℕ → ℕ) (tbl : Modified.Table α) :
    ∀ (fuel k : ℕ) (s : σ) (prev : Option α) (acc : List (α × ℕ))
      (rs : σ) (k' : ℕ) (used : List (α × ℕ)),
      (∀ e ∈ acc, ∃ s0 s1, b.next_state s0 e.1 = some s1
          ∧ e.2 = b.current_player s1) →
      Modified.rolloutLoop b rng tbl fuel k s prev acc = .ok (rs, k', used) →
      ∀ e ∈ used, ∃ s0 s1, b.next_state s0 e.1 = some s1
          ∧ e.2 = b.current_player s1 := by
  intro fuel
  induction fuel with
  | zero =>
    intro k s prev acc rs k' used _ hok
    simp [Modified.rolloutLoop] at hok
  | succ fuel ih =>
    intro k s prev acc rs k' used hacc hok
    rw [Modified.rolloutLoop] at hok
    split at hok
    · obtain ⟨rfl, rfl, rfl⟩ := by simpa using hok
      exact hacc
    · split at hok
      · simp at hok
      · split at hok
        · obtain ⟨rfl, rfl, rfl⟩ := by simpa using hok
          exact hacc
        · rename_i na k2 _ s2 hns
          refine ih _ _ _ _ _ _ _ ?_ hok
          intro e he
          rcases List.mem_append.mp he with hm | hm
          · exact hacc e hm
          · rcases List.mem_singleton.mp hm with rfl
            exact ⟨s, s2, hns, rfl⟩

/-- C2 witness: a full two-step playout on WalkBoard records
[(10, 1), (11, 2)], each mover the current player of the resulting state. -/
theorem c2_witness :
    (∀ e ∈ ([] : List (ℕ × ℕ)), ∃ s0 s1,
        WalkBoard.next_state s0 e.1 = some s1
          ∧ e.2 = WalkBoard.current_player s1)
    ∧ Modified.rolloutLoop WalkBoard rng0 (fun _ => none) 9 0 0 none []
        = .ok (2, 2, [(10, 1), (11, 2)])
    ∧ ∀ e ∈ [((10 : ℕ), (1 : ℕ)), (11, 2)], ∃ s0 s1,
        WalkBoard.next_state s0 e.1 = some s1
          ∧ e.2 = WalkBoard.current_player s1 :=
  ⟨by simp, rfl,
    c2_history_mover WalkBoard rng0 (fun _ => none) 9 0 0 none [] 2 2
      [(10, 1), (11, 2)] (by simp) rfl⟩

/-! ### Backpropagation path lemmas -/

theorem backpropagate_none {α : Type} (fuel : ℕ) (t : Tree α) (won : Bool) :
    backpropagate fuel t none won = t := by
  cases fuel <;> rfl

theorem bpPath_none {α : Type} (fuel : ℕ) (t : Tree α) :
    bpPath fuel t none = [] := by
  cases fuel <;> rfl

theorem backpropagate_cons_eq {α : Type} (fuel : ℕ) (t : Tree α) (i : ℕ)
    (won : Bool) (nd : NodeData α) (h : t[i]? = some nd) :
    backpropagate (fuel + 1) t (some i) won
      = backpropagate fuel (modifyAt t i (bump won)) nd.parent won := by
  simp [backpropagate, h]

theorem bpPath_cons_eq {α : Type} (fuel : ℕ) (t : Tree α) (i : ℕ)
    (nd : NodeData α) (h : t[i]? = some nd) :
    bpPath (fuel + 1) t (some i) = i :: bpPath fuel t nd.parent := by
  simp [bpPath, h]

theorem backpropagate_length {α : Type} (won : Bool) :
    ∀ (fuel : ℕ) (t : Tree α) (oi : Option ℕ),
      (backpropagate fuel t oi won).length = t.length := by
  intro fuel
  induction fuel with
  | zero => intro t oi; rfl
  | succ fuel ih =>
    intro t oi
    cases oi with
    | none => rfl
    | some i =>
      cases h : t[i]? with
      | none => simp [backpropagate, h]
      | some nd =>
        rw [backpropagate_cons_eq fuel t i won nd h, ih, modifyAt_length]

theorem bpPath_modify_bump {α : Type} (won : Bool) :
    ∀ (fuel : ℕ) (t : Tree α) (i : ℕ) (oi : Option ℕ),
      bpPath fuel (modifyAt t i (bump won)) oi = bpPath fuel t oi := by
  intro fuel
  induction fuel with
  | zero => intro t i oi; rfl
  | succ fuel ih =>
    intro t i oi
    cases oi with
    | none => rfl
    | some j =>
      by_cases hij : i = j
      · subst hij
        cases h : t[i]? with
        | none =>
          have h' : (modifyAt t i (bump won))[i]? = none := by
            rw [getElem?_modifyAt, if_pos rfl, h]; rfl
          simp [bpPath, h, h']
        | some nd =>
          have h' : (modifyAt t i (bump won))[i]? = some (bump won nd) := by
            rw [getElem?_modifyAt, if_pos rfl, h]; rfl
          rw [bpPath_cons_eq fuel _ i (bump won nd) h',
            bpPath_cons_eq fuel t i nd h, ih]
          rfl
      · cases h : t[j]? with
        | none =>
          have h' : (modifyAt t i (bump won))[j]? = none := by
            rw [getElem?_modifyAt, if_neg hij, h]
          simp [bpPath, h, h']
        | some nd =>
          have h' : (modifyAt t i (bump won))[j]? = some nd := by
            rw [getElem?_modifyAt, if_neg hij, h]
          rw [bpPath_cons_eq fuel _ j nd h', bpPath_cons_eq fuel t j nd h, ih]

theorem hmono_modifyAt_bump {α : Type} (t : Tree α) (i : ℕ) (won : Bool)
    (hmono : ∀ (a q : ℕ) (nd : NodeData α),
      t[a]? = some nd → nd.parent = some q → q < a) :
    ∀ (a q : ℕ) (nd : NodeData α),
      (modifyAt t i (bump won))[a]? = some nd → nd.parent = some q → q < a := by
  intro a q nd h hq
  rw [getElem?_modifyAt] at h
  by_cases hia : i = a
  · rw [if_pos hia] at h
    cases ht : t[a]? with
    | none => rw [ht] at h; simp at h
    | some nd0 =>
      rw [ht] at h
      simp only [Option.map_some', Option.some.injEq] at h
      have hpar : nd.parent = nd0.parent := by rw [← h]; rfl
      exact hmono a q nd0 ht (by rw [← hpar, hq])
  · rw [if_neg hia] at h
    exact hmono a q nd h hq

theorem bpPath_le {α : Type} (t : Tree α)
    (hmono : ∀ (a q : ℕ) (nd : NodeData α),
      t[a]? = some nd → nd.parent = some q → q < a) :
    ∀ (fuel q : ℕ) (x : ℕ), x ∈ bpPath fuel t (some q) → x ≤ q := by
  intro fuel
  induction fuel with
  | zero => intro q x hx; simp [bpPath] at hx
  | succ fuel ih =>
    intro q x hx
    cases hq : t[q]? with
    | none => simp [bpPath, hq] at hx
    | some nd =>
      rw [bpPath_cons_eq fuel t q nd hq] at hx
      rcases List.mem_cons.mp hx with rfl | hx'
      · exact le_refl _
      · cases hp : nd.parent with
        | none => rw [hp, bpPath_none] at hx'; simp at hx'
        | some p =>
          rw [hp] at hx'
          exact le_trans (ih p x hx') (le_of_lt (hmono q p nd hq hp))

theorem bpPath_head_mem {α : Type} (t : Tree α) (i fuel : ℕ)
    (nd : NodeData α) (h : t[i]? = some nd) (hf : 0 < fuel) :
    i ∈ bpPath fuel t (some i) := by
  cases fuel with
  | zero => omega
  | succ f =>
    rw [bpPath_cons_eq f t i nd h]
    exact List.mem_cons_self _ _

theorem bpPath_root_mem {α : Type} (t : Tree α)
    (hmono : ∀ (a q : ℕ) (nd : NodeData α),
      t[a]? = some nd → nd.parent = some q → q < a)
    (hroot : ∀ (a : ℕ) (nd : NodeData α),
      t[a]? = some nd → (nd.parent = none ↔ a = 0)) :
    ∀ (fuel i : ℕ), i < t.length → i < fuel → 0 ∈ bpPath fuel t (some i) := by
  intro fuel
  induction fuel with
  | zero => intro i _ h; exact absurd h (Nat.not_lt_zero i)
  | succ fuel ih =>
    intro i hi hif
    obtain ⟨nd, hnd⟩ : ∃ nd, t[i]? = some nd := ⟨_, List.getElem?_eq_getElem hi⟩
    rw [bpPath_cons_eq fuel t i nd hnd]
    cases hp : nd.parent with
    | none =>
      have h0 : i = 0 := (hroot i nd hnd).mp hp
      subst h0
      exact List.mem_cons_self _ _
    | some p =>
      have hpi : p < i := hmono i p nd hnd hp
      exact List.mem_cons_of_mem _ (ih p (by omega) (by omega))

theorem backpropagate_getElem {α : Type} (won : Bool) :
    ∀ (fuel : ℕ) (t : Tree α) (i : ℕ),
      (∀ (a q : ℕ) (nd : NodeData α),
        t[a]? = some nd → nd.parent = some q → q < a) →
      i < t.length → i < fuel →
      ∀ j, (backpropagate fuel t (some i) won)[j]?
        = if j ∈ bpPath fuel t (some i) then (t[j]?).map (bump won)
          else t[j]? := by
  intro fuel
  induction fuel with
  | zero => intro t i _ _ hif; exact absurd hif (Nat.not_lt_zero i)
  | succ fuel ih =>
    intro t i hmono hi hif j
    obtain ⟨nd, hnd⟩ : ∃ nd, t[i]? = some nd := ⟨_, List.getElem?_eq_getElem hi⟩
    rw [backpropagate_cons_eq fuel t i won nd hnd,
      bpPath_cons_eq fuel t i nd hnd]
    cases hp : nd.parent with
    | none =>
      rw [backpropagate_none, bpPath_none, getElem?_modifyAt]
      by_cases hij : j = i
      · subst hij
        rw [if_pos rfl, if_pos (List.mem_cons_self _ _)]
      · rw [if_neg (fun h => hij h.symm),
          if_neg (by simp [List.mem_singleton, hij])]
    | some p =>
      have hpi : p < i := hmono i p nd hnd hp
      have hmono' := hmono_modifyAt_bump t i won hmono
      have hlen : p < (modifyAt t i (bump won)).length := by
        rw [modifyAt_length]; omega
      have ihall := ih (modifyAt t i (bump won)) p hmono' hlen (by omega) j
      rw [ihall, bpPath_modify_bump won fuel t i (some p)]
      simp only [getElem?_modifyAt]
      by_cases hij : j = i
      · subst hij
        have hnotin : j ∉ bpPath fuel t (some p) := by
          intro hin
          exact absurd (bpPath_le t hmono fuel p j hin) (not_le.mpr hpi)
        rw [if_neg hnotin, if_pos rfl, if_pos (List.mem_cons_self _ _)]
      · have hij' : ¬ i = j := fun h => hij h.symm
        simp only [if_neg hij']
        by_cases hmem : j ∈ bpPath fuel t (some p)
        · rw [if_pos hmem, if_pos (List.mem_cons_of_mem i hmem)]
        · rw [if_neg hmem, if_neg (by simp [hij, hmem])]

/-! ### Claim C7 -/

/-- C7: one backpropagate call from a leaf of a well-formed arena touches
exactly the parent-link path from the leaf up to and including the root
(index 0): every node on the path gets its statistics bumped — visits
incremented by exactly 1 and wins incremented by exactly 1 precisely when
the fixed boolean won is true, as spelled out by bump — and every node off
the path is left unchanged. -/
theorem c7_backpropagate {α : Type} (t : Tree α) (leaf : ℕ) (won : Bool)
    (hmono : ∀ (i p : ℕ) (nd : NodeData α),
      t[i]? = some nd → nd.parent = some p → p < i)
    (hroot : ∀ (i : ℕ) (nd : NodeData α),
      t[i]? = some nd → (nd.parent = none ↔ i = 0))
    (hleaf : leaf < t.length) :
    leaf ∈ bpPath t.length t (some leaf)
    ∧ 0 ∈ bpPath t.length t (some leaf)
    ∧ ∀ (j : ℕ) (nd : NodeData α), t[j]? = some nd →
        ((j ∈ bpPath t.length t (some leaf) →
            (backpropagate t.length t (some leaf) won)[j]?
              = some (bump won nd))
         ∧ (j ∉ bpPath t.length t (some leaf) →
            (backpropagate t.length t (some leaf) won)[j]? = some nd)) := by
  obtain ⟨nd0, hnd0⟩ : ∃ nd, t[leaf]? = some nd :=
    ⟨_, List.getElem?_eq_getElem hleaf⟩
  refine ⟨bpPath_head_mem t leaf t.length nd0 hnd0 (by omega),
    bpPath_root_mem t hmono hroot t.length leaf hleaf hleaf, ?_⟩
  intro j nd hnd
  have hdelta := backpropagate_getElem won t.length t leaf hmono hleaf hleaf j
  constructor
  · intro hmem
    rw [hdelta, if_pos hmem, hnd]
    rfl
  · intro hmem
    rw [hdelta, if_neg hmem, hnd]

/-- C7 witness: on the three-node chain T3 with won = true, the leaf and
the root are on the path and the middle node is bumped. -/
theorem c7_witness :
    2 ∈ bpPath 3 T3 (some 2)
    ∧ 0 ∈ bpPath 3 T3 (some 2)
    ∧ (backpropagate 3 T3 (some 2) true)[1]?
        = some (bump true ⟨some 0, some 5, [(6, 2)], [], 2, 1⟩) := by
  have h := c7_backpropagate T3 2 true
    (by
      rintro (_|(_|(_|i))) p nd hnd hp
      · simp [T3] at hnd
        rw [← hnd] at hp
        simp at hp
      · simp [T3] at hnd
        rw [← hnd] at hp
        simp at hp
        omega
      · simp [T3] at hnd
        rw [← hnd] at hp
        simp at hp
        omega
      · simp [T3] at hnd)
    (by
      rintro (_|(_|(_|i))) nd hnd
      · simp [T3] at hnd; rw [← hnd]; simp
      · simp [T3] at hnd; rw [← hnd]; simp
      · simp [T3] at hnd; rw [← hnd]; simp
      · simp [T3] at hnd)
    (by decide)
  exact ⟨h.1, h.2.1, (h.2.2 1 _ rfl).1 (by decide)⟩

/-! ### Statistics invariant machinery -/

theorem getNode_ok {α : Type} (t : Tree α) (i : ℕ) (nd : NodeData α) :
    getNode t i = .ok nd ↔ t[i]? = some nd := by
  unfold getNode
  cases t[i]? <;> simp

theorem mem_modifyAt {β : Type} (f : β → β) :
    ∀ (t : List β) (i : ℕ) (x : β),
      x ∈ modifyAt t i f → x ∈ t ∨ ∃ y ∈ t, x = f y := by
  intro t
  induction t with
  | nil => intro i x hx; simp [modifyAt] at hx
  | cons z zs ih =>
    intro i x hx
    cases i with
    | zero =>
      simp only [modifyAt] at hx
      rcases List.mem_cons.mp hx with rfl | hx'
      · exact Or.inr ⟨z, by simp, rfl⟩
      · exact Or.inl (by simp [hx'])
    | succ i =>
      simp only [modifyAt] at hx
      rcases List.mem_cons.mp hx with rfl | hx'
      · exact Or.inl (by simp)
      · rcases ih i x hx' with h | ⟨y, hy, hxy⟩
        · exact Or.inl (by simp [h])
        · exact Or.inr ⟨y, by simp [hy], hxy⟩

theorem backpropagate_wins_le_visits {α : Type} (won : Bool) :
    ∀ (fuel : ℕ) (t : Tree α) (oi : Option ℕ),
      (∀ nd ∈ t, nd.wins ≤ nd.visits) →
      ∀ nd ∈ backpropagate fuel t oi won, nd.wins ≤ nd.visits := by
  intro fuel
  induction fuel with
  | zero => intro t oi h nd hnd; exact h nd hnd
  | succ fuel ih =>
    intro t oi h nd hnd
    cases oi with
    | none => exact h nd (by rwa [backpropagate_none] at hnd)
    | some i =>
      cases ht : t[i]? with
      | none =>
        have heq : backpropagate (fuel + 1) t (some i) won = t := by
          simp [backpropagate, ht]
        exact h nd (by rwa [heq] at hnd)
      | some nd0 =>
        rw [backpropagate_cons_eq fuel t i won nd0 ht] at hnd
        refine ih (modifyAt t i (bump won)) nd0.parent ?_ nd hnd
        intro y hy
        rcases mem_modifyAt (bump won) t i y hy with hmem | ⟨z, hz, rfl⟩
        · exact h y hmem
        · have hz' := h z hz
          unfold bump
          cases won <;> simp <;> omega

/-- What a successful expand_leaf call did: either the no-op branch, or one
untried action got expanded into a fresh zero-statistics child appended at
the end of the arena. -/
theorem expand_leaf_spec {σ α : Type} [DecidableEq α] (b : Board σ α)
    (rng : ℕ → ℕ) (t : Tree α) (i : ℕ) (s : σ) (k : ℕ)
    (t' : Tree α) (i' : ℕ) (s' : σ) (k' : ℕ)
    (hok : expand_leaf b rng t i s k = .ok (t', i', s', k')) :
    (t' = t ∧ i' = i ∧ s' = s ∧ k' = k) ∨
    (∃ (nd : NodeData α) (na : α) (ns : σ),
      t[i]? = some nd
      ∧ choice nd.untried_actions (rng k) = some na
      ∧ b.next_state s na = some ns
      ∧ b.is_ended s = false ∧ 0 < nd.untried_actions.length
      ∧ t' = modifyAt t i (fun m =>
            { m with
                untried_actions := m.untried_actions.erase na,
                child_nodes := dictUpd m.child_nodes na t.length })
          ++ [⟨some i, some na, [], b.legal_actions ns, 0, 0⟩]
      ∧ i' = t.length ∧ s' = ns ∧ k' = k + 1) := by
  unfold expand_leaf at hok
  split at hok
  · simp at hok
  · rename_i nd heq
    split at hok
    · rename_i hcond
      split at hok
      · simp at hok
      · rename_i na hna
        split at hok
        · simp at hok
        · rename_i ns hns
          obtain ⟨h1, h2, h3, h4⟩ := by simpa using hok
          exact Or.inr ⟨nd, na, ns, (getNode_ok t i nd).mp heq, hna, hns,
            hcond.1, hcond.2, h1.symm, h2.symm, h3.symm, h4.symm⟩
    · obtain ⟨h1, h2, h3, h4⟩ := by simpa using hok
      exact Or.inl ⟨h1.symm, h2.symm, h3.symm, h4.symm⟩

/-! ### Claim C10 -/

/-- C10: wins never exceeds visits.  Expansion only introduces nodes whose
statistics either coincide with those of a pre-existing node or are zero;
one backpropagation pass preserves wins ≤ visits across the whole arena
(each touched node gains one visit and at most one win); and under
wins ≤ visits with positive visits the win rate lies in [0, 1]. -/
theorem c10_wins_le_visits {σ α : Type} [DecidableEq α] (b : Board σ α)
    (rng : ℕ → ℕ) :
    (∀ (t : Tree α) (i : ℕ) (s : σ) (k : ℕ)
        (t' : Tree α) (i' : ℕ) (s' : σ) (k' : ℕ),
        expand_leaf b rng t i s k = .ok (t', i', s', k') →
        ∀ nd' ∈ t',
          (nd'.wins, nd'.visits) ∈ t.map (fun nd => (nd.wins, nd.visits))
          ∨ (nd'.wins = 0 ∧ nd'.visits = 0))
    ∧ (∀ (fuel : ℕ) (t : Tree α) (oi : Option ℕ) (won : Bool),
        (∀ nd ∈ t, nd.wins ≤ nd.visits) →
        ∀ nd ∈ backpropagate fuel t oi won, nd.wins ≤ nd.visits)
    ∧ (∀ w v : ℕ, w ≤ v → 0 < v →
        0 ≤ (w : ℚ) / (v : ℚ) ∧ (w : ℚ) / (v : ℚ) ≤ 1) := by
  refine ⟨?_, fun fuel t oi won => backpropagate_wins_le_visits won fuel t oi, ?_⟩
  · intro t i s k t' i' s' k' hok nd' hnd'
    rcases expand_leaf_spec b rng t i s k t' i' s' k' hok with
      ⟨rfl, _, _, _⟩ | ⟨nd, na, ns, _, _, _, _, _, ht', _, _, _⟩
    · exact Or.inl (List.mem_map_of_mem _ hnd')
    · subst ht'
      rcases List.mem_append.mp hnd' with hmem | hmem
      · rcases mem_modifyAt _ t i nd' hmem with hmem' | ⟨y, hy, rfl⟩
        · exact Or.inl (List.mem_map_of_mem _ hmem')
        · exact Or.inl (by
            refine List.mem_map.mpr ⟨y, hy, ?_⟩
            rfl)
      · rcases List.mem_singleton.mp hmem with rfl
        exact Or.inr ⟨rfl, rfl⟩
  · intro w v hwv hv
    constructor
    · exact div_nonneg (Nat.cast_nonneg w) (Nat.cast_nonneg v)
    · rw [div_le_one (by exact_mod_cast hv)]
      exact_mod_cast hwv

/-- C10 witness: a real expansion (fresh zero statistics), one
backpropagation pass on T3 (the bumped root still satisfies wins ≤ visits),
and the win rate 1/2 lying in [0, 1]. -/
theorem c10_witness :
    (((⟨some 0, some 10, [], [11], 0, 0⟩ : NodeData ℕ).wins,
        (⟨some 0, some 10, [], [11], 0, 0⟩ : NodeData ℕ).visits)
      ∈ ([⟨none, none, [], [10], 0, 0⟩] : Tree ℕ).map
          (fun nd => (nd.wins, nd.visits))
     ∨ ((⟨some 0, some 10, [], [11], 0, 0⟩ : NodeData ℕ).wins = 0
        ∧ (⟨some 0, some 10, [], [11], 0, 0⟩ : NodeData ℕ).visits = 0))
    ∧ (⟨none, none, [(5, 1)], [], 4, 2⟩ : NodeData ℕ).wins
        ≤ (⟨none, none, [(5, 1)], [], 4, 2⟩ : NodeData ℕ).visits
    ∧ (0 ≤ (1 : ℚ) / (2 : ℚ) ∧ (1 : ℚ) / (2 : ℚ) ≤ 1) :=
  ⟨(c10_wins_le_visits WalkBoard rng0).1
      [⟨none, none, [], [10], 0, 0⟩] 0 0 0
      [⟨none, none, [(10, 1)], [], 0, 0⟩, ⟨some 0, some 10, [], [11], 0, 0⟩]
      1 1 1 rfl ⟨some 0, some 10, [], [11], 0, 0⟩ (by decide),
    (c10_wins_le_visits WalkBoard rng0).2.1 3 T3 (some 2) true (by decide)
      ⟨none, none, [(5, 1)], [], 4, 2⟩ (by decide),
    (c10_wins_le_visits WalkBoard rng0).2.2 1 2 (by decide) (by decide)⟩

/-! ### Error-shape lemmas: which errors each operation can raise -/

theorem getNode_err {α : Type} (t : Tree α) (i : ℕ) (e : Err)
    (h : getNode t i = .error e) : e = .badIndex := by
  unfold getNode at h
  cases ht : t[i]? <;> rw [ht] at h <;> simp_all

theorem is_win_err {σ α : Type} (b : Board σ α) (s : σ) (bot : ℕ) (e : Err)
    (h : is_win b s bot = .error e) : e = .assertNonTerminal := by
  unfold is_win at h
  cases hp : b.points_values s <;> rw [hp] at h <;> simp_all

theorem expand_leaf_err {σ α : Type} [DecidableEq α] (b : Board σ α)
    (rng : ℕ → ℕ) (t : Tree α) (i : ℕ) (s : σ) (k : ℕ) (e : Err)
    (h : expand_leaf b rng t i s k = .error e) :
    e = .badIndex ∨ e = .choiceEmpty ∨ e = .nullState := by
  unfold expand_leaf at h
  split at h
  · rename_i e0 heq
    have h0 : e0 = e := by simpa using h
    exact Or.inl (h0 ▸ getNode_err t i e0 heq)
  · split at h
    · split at h
      · exact Or.inr (Or.inl (by simpa using h.symm))
      · split at h
        · exact Or.inr (Or.inr (by simpa using h.symm))
        · simp at h
    · simp at h

theorem vanilla_rollout_ne {σ α : Type} (b : Board σ α) (rng : ℕ → ℕ) :
    ∀ (fuel k : ℕ) (s : σ),
      Vanilla.rollout b rng fuel k s ≠ .error .ucbZeroVisit := by
  intro fuel
  induction fuel with
  | zero => intro k s h; simp [Vanilla.rollout] at h
  | succ fuel ih =>
    intro k s h
    rw [Vanilla.rollout] at h
    split at h
    · simp at h
    · split at h
      · simp at h
      · split at h
        · simp at h
        · exact ih _ _ h

theorem vanilla_sim_ne {σ α : Type} (b : Board σ α) (rng : ℕ → ℕ)
    (rfuel bot k : ℕ) (u : Unit) (s : σ) :
    Vanilla.sim b rng rfuel bot k u s ≠ .error .ucbZeroVisit := by
  intro h
  unfold Vanilla.sim at h
  split at h
  · rename_i e heq
    have h0 : e = Err.ucbZeroVisit := by simpa using h
    exact vanilla_rollout_ne b rng rfuel k s (h0 ▸ heq)
  · split at h
    · rename_i e heq
      have h0 : e = Err.ucbZeroVisit := by simpa using h
      have := is_win_err b _ bot e heq
      simp [h0] at this
    · simp at h

theorem modified_rolloutLoop_ne {σ α : Type} [DecidableEq α] (b : Board σ α)
    (rng : ℕ → ℕ) (tbl : Modified.Table α) :
    ∀ (fuel k : ℕ) (s : σ) (prev : Option α) (acc : List (α × ℕ)),
      Modified.rolloutLoop b rng tbl fuel k s prev acc
        ≠ .error .ucbZeroVisit := by
  intro fuel
  induction fuel with
  | zero => intro k s prev acc h; simp [Modified.rolloutLoop] at h
  | succ fuel ih =>
    intro k s prev acc h
    rw [Modified.rolloutLoop] at h
    split at h
    · simp at h
    · split at h
      · simp at h
      · split at h
        · simp at h
        · exact ih _ _ _ _ h

theorem modified_sim_ne {σ α : Type} [DecidableEq α] (b : Board σ α)
    (rng : ℕ → ℕ) (rfuel bot k : ℕ) (tbl : Modified.Table α) (s : σ) :
    Modified.sim b rng rfuel bot k tbl s ≠ .error .ucbZeroVisit := by
  intro h
  unfold Modified.sim Modified.rollout at h
  split at h
  · rename_i e heq
    have h0 : e = Err.ucbZeroVisit := by simpa using h
    split at heq
    · rename_i e2 heq2
      have h2 : e2 = e := by simpa using heq
      rw [h2, h0] at heq2
      exact modified_rolloutLoop_ne b rng tbl rfuel k s none [] heq2
    · split at heq
      · rename_i e2 heq2
        have h2 : e2 = e := by simpa using heq
        have := is_win_err b _ bot e2 heq2
        rw [h2, h0] at this
        simp at this
      · simp at heq
  · simp at h

/-! ### Dict update and append lemmas -/

theorem mem_dictUpd {α : Type} [DecidableEq α] (l : List (α × ℕ)) (a : α)
    (v : ℕ) (x : α × ℕ) :
    x ∈ dictUpd l a v → x ∈ l ∨ x = (a, v) := by
  unfold dictUpd
  split
  · intro hx
    rcases List.mem_map.mp hx with ⟨y, hy, hxy⟩
    by_cases hya : y.1 = a
    · rw [if_pos hya] at hxy
      exact Or.inr hxy.symm
    · rw [if_neg hya] at hxy
      exact Or.inl (hxy ▸ hy)
  · intro hx
    rcases List.mem_append.mp hx with h | h
    · exact Or.inl h
    · exact Or.inr (List.mem_singleton.mp h)

theorem dictUpd_ne_nil {α : Type} [DecidableEq α] (l : List (α × ℕ)) (a : α)
    (v : ℕ) : dictUpd l a v ≠ [] := by
  unfold dictUpd
  split
  · rename_i hany
    intro h
    rw [List.map_eq_nil_iff] at h
    subst h
    simp at hany
  · simp

theorem getElem?_append_one {β : Type} (A : List β) (x : β) (j : ℕ) :
    (A ++ [x])[j]? =
      if j < A.length then A[j]?
      else if j = A.length then some x else none := by
  rw [List.getElem?_append]
  by_cases h : j < A.length
  · simp [h]
  · rw [if_neg h, if_neg h]
    by_cases he : j = A.length
    · subst he
      simp
    · rw [if_neg he]
      apply List.getElem?_eq_none
      simp
      omega

/-! ### Traversal never reads a zero-visit node on a well-formed arena -/

theorem scoreChildren_ok {σ α S : Type} (scorer : ℕ → ℕ → ℕ → Bool → S)
    (b : Board σ α) (bot : ℕ) (t : Tree α) (s : σ) (hInv : Inv t)
    (i : ℕ) (nd : NodeData α) (hnd : t[i]? = some nd)
    (hvis : nd.child_nodes ≠ [] → 1 ≤ nd.visits) :
    ∀ (cs : List (α × ℕ)), (∀ e ∈ cs, e ∈ nd.child_nodes) →
      ∃ scored, scoreChildren scorer b bot t s cs = .ok scored
        ∧ ∀ x ∈ scored, ∃ a, (a, x.2) ∈ nd.child_nodes := by
  intro cs
  induction cs with
  | nil => exact fun _ => ⟨[], rfl, by simp⟩
  | cons e rest ih =>
    intro hsub
    obtain ⟨a, ci⟩ := e
    have hmem : (a, ci) ∈ nd.child_nodes := hsub _ (by simp)
    obtain ⟨hlt, cd, hcd, hcdp, hcdv⟩ := hInv.child_wf i ci nd a hnd hmem
    have hndv : 1 ≤ nd.visits :=
      hvis (by intro h; rw [h] at hmem; simp at hmem)
    obtain ⟨scored, hscored, hmems⟩ := ih (fun y hy => hsub y (by simp [hy]))
    have hg : getNode t ci = .ok cd := (getNode_ok t ci cd).mpr hcd
    have hcdv0 : ¬ cd.visits = 0 := by omega
    have hndv0 : ¬ nd.visits = 0 := by omega
    refine ⟨(scorer cd.wins cd.visits nd.visits
        (decide (b.current_player s ≠ bot)), ci) :: scored, ?_, ?_⟩
    · simp only [scoreChildren, hg, ucbE, hcdv0, if_false, hcdp, hnd, hndv0,
        hscored]
    · intro x hx
      rcases List.mem_cons.mp hx with rfl | hx'
      · exact ⟨a, hmem⟩
      · exact hmems x hx'

theorem traverse_nodes_spec {σ α S : Type} [LinearOrder S] [Zero S]
    (scorer : ℕ → ℕ → ℕ → Bool → S) (b : Board σ α) (bot : ℕ)
    (t : Tree α) (hInv : Inv t) :
    ∀ (fuel i : ℕ) (s : σ), i < t.length →
      (traverse_nodes scorer b bot fuel t i s ≠ .error .ucbZeroVisit)
      ∧ ∀ (j : ℕ) (s' : σ),
          traverse_nodes scorer b bot fuel t i s = .ok (j, s') →
          j < t.length := by
  intro fuel
  induction fuel with
  | zero =>
    intro i s hi
    constructor
    · intro h; simp [traverse_nodes] at h
    · intro j s' h; simp [traverse_nodes] at h
  | succ fuel ih =>
    intro i s hi
    obtain ⟨nd, hnd⟩ : ∃ nd, t[i]? = some nd := ⟨_, List.getElem?_eq_getElem hi⟩
    have hg : getNode t i = .ok nd := (getNode_ok t i nd).mpr hnd
    by_cases hunt : 0 < nd.untried_actions.length
    · constructor
      · intro h
        simp only [traverse_nodes, hg, if_pos hunt] at h
        simp at h
      · intro j s' h
        simp only [traverse_nodes, hg, if_pos hunt] at h
        obtain ⟨rfl, rfl⟩ : i = j ∧ s = s' := by simpa using h
        exact hi
    · obtain ⟨scored, hscored, hmems⟩ :=
        scoreChildren_ok scorer b bot t s hInv i nd hnd
          (hInv.haschild i nd hnd) nd.child_nodes (fun e he => he)
      cases hpick : (pickBest scored).2 with
      | none =>
        constructor
        · intro h
          simp only [traverse_nodes, hg, if_neg hunt, hscored, hpick] at h
          simp at h
        · intro j s' h
          simp only [traverse_nodes, hg, if_neg hunt, hscored, hpick] at h
          obtain ⟨rfl, rfl⟩ : i = j ∧ s = s' := by simpa using h
          exact hi
      | some ci =>
        have hcimem : ∃ v, (v, ci) ∈ scored := by
          unfold pickBest at hpick
          rcases foldl_pickStep_mem scored _ ci hpick with h | h
          · exact h
          · simp at h
        obtain ⟨v, hv⟩ := hcimem
        obtain ⟨a, ha⟩ := hmems (v, ci) hv
        obtain ⟨hlt, cd, hcd, hcdp, hcdv⟩ := hInv.child_wf i ci nd a hnd ha
        have hcig : getNode t ci = .ok cd := (getNode_ok t ci cd).mpr hcd
        have hci : ci < t.length := (List.getElem?_eq_some.mp hcd).1
        cases hpa : cd.parent_action with
        | none =>
          constructor
          · intro h
            simp only [traverse_nodes, hg, if_neg hunt, hscored, hpick, hcig,
              hpa] at h
            simp at h
          · intro j s' h
            simp only [traverse_nodes, hg, if_neg hunt, hscored, hpick, hcig,
              hpa] at h
            simp at h
        | some a2 =>
          cases hns : b.next_state s a2 with
          | none =>
            constructor
            · intro h
              simp only [traverse_nodes, hg, if_neg hunt, hscored, hpick,
                hcig, hpa, hns] at h
              simp at h
            · intro j s' h
              simp only [traverse_nodes, hg, if_neg hunt, hscored, hpick,
                hcig, hpa, hns] at h
              simp at h
          | some s2 =>
            have ihres := ih ci s2 hci
            constructor
            · intro h
              simp only [traverse_nodes, hg, if_neg hunt, hscored, hpick,
                hcig, hpa, hns] at h
              exact ihres.1 h
            · intro j s' h
              simp only [traverse_nodes, hg, if_neg hunt, hscored, hpick,
                hcig, hpa, hns] at h
              exact ihres.2 j s' h

/-! ### Invariant preservation through one iteration -/

theorem backprop_inv_general {α : Type} (te : Tree α) (leaf : ℕ) (won : Bool)
    (hne : 0 < te.length) (hleaf : leaf < te.length)
    (hmono : ∀ (a q : ℕ) (nd : NodeData α),
      te[a]? = some nd → nd.parent = some q → q < a)
    (hroot : ∀ (a : ℕ) (nd : NodeData α),
      te[a]? = some nd → (nd.parent = none ↔ a = 0))
    (hcw : ∀ (a ci : ℕ) (nd : NodeData α) (aa : α),
      te[a]? = some nd → (aa, ci) ∈ nd.child_nodes →
      a < ci ∧ ∃ cd, te[ci]? = some cd ∧ cd.parent = some a ∧
        (1 ≤ cd.visits ∨ ci ∈ bpPath te.length te (some leaf)))
    (hhc : ∀ (a : ℕ) (nd : NodeData α),
      te[a]? = some nd → nd.child_nodes ≠ [] →
      (1 ≤ nd.visits ∨ a ∈ bpPath te.length te (some leaf))) :
    Inv (backpropagate te.length te (some leaf) won)
    ∧ ∀ nd0 : NodeData α, te[0]? = some nd0 →
        (backpropagate te.length te (some leaf) won)[0]?
          = some (bump won nd0) := by
  have hdelta : ∀ j, (backpropagate te.length te (some leaf) won)[j]?
      = if j ∈ bpPath te.length te (some leaf)
        then (te[j]?).map (bump won) else te[j]? :=
    backpropagate_getElem won te.length te leaf hmono hleaf hleaf
  have hP0 : 0 ∈ bpPath te.length te (some leaf) :=
    bpPath_root_mem te hmono hroot te.length leaf hleaf hleaf
  have hF : ∀ (j : ℕ) (nd' : NodeData α),
      (backpropagate te.length te (some leaf) won)[j]? = some nd' →
      ∃ nd, te[j]? = some nd ∧ nd'.parent = nd.parent
        ∧ nd'.child_nodes = nd.child_nodes ∧ nd.visits ≤ nd'.visits := by
    intro j nd' h
    rw [hdelta j] at h
    by_cases hj : j ∈ bpPath te.length te (some leaf)
    · rw [if_pos hj] at h
      cases ht : te[j]? with
      | none => rw [ht] at h; simp at h
      | some nd =>
        rw [ht] at h
        simp only [Option.map_some', Option.some.injEq] at h
        refine ⟨nd, rfl, ?_, ?_, ?_⟩
        · rw [← h]; rfl
        · rw [← h]; rfl
        · rw [← h]; exact Nat.le_succ _
    · rw [if_neg hj] at h
      exact ⟨nd', h, rfl, rfl, le_refl _⟩
  have hB : ∀ (j : ℕ) (nd : NodeData α), te[j]? = some nd →
      j ∈ bpPath te.length te (some leaf) →
      (backpropagate te.length te (some leaf) won)[j]?
        = some (bump won nd) := by
    intro j nd h hj
    rw [hdelta j, if_pos hj, h]
    rfl
  have hBvis : ∀ (j : ℕ) (nd : NodeData α), te[j]? = some nd →
      ∃ nd', (backpropagate te.length te (some leaf) won)[j]? = some nd'
        ∧ nd.visits ≤ nd'.visits ∧ nd'.parent = nd.parent
        ∧ (j ∈ bpPath te.length te (some leaf) → 1 ≤ nd'.visits) := by
    intro j nd h
    by_cases hj : j ∈ bpPath te.length te (some leaf)
    · exact ⟨bump won nd, hB j nd h hj, Nat.le_succ _, rfl,
        fun _ => Nat.succ_le_succ (Nat.zero_le _)⟩
    · refine ⟨nd, ?_, le_refl _, rfl, fun hc => absurd hc hj⟩
      rw [hdelta j, if_neg hj, h]
  constructor
  · refine ⟨?_, ?_, ?_, ?_, ?_⟩
    · rw [backpropagate_length]; exact hne
    · intro a ci nd aa hnd hmem
      obtain ⟨ndo, hndo, hpar, hch, hvis⟩ := hF a nd hnd
      rw [hch] at hmem
      obtain ⟨hlt, cd, hcd, hcdp, hcdv⟩ := hcw a ci ndo aa hndo hmem
      obtain ⟨cd', hcd', hcdvis, hcdpar, hcdbump⟩ := hBvis ci cd hcd
      refine ⟨hlt, cd', hcd', by rw [hcdpar, hcdp], ?_⟩
      rcases hcdv with h1 | hmemP
      · omega
      · exact hcdbump hmemP
    · intro a q nd hnd hq
      obtain ⟨ndo, hndo, hpar, _, _⟩ := hF a nd hnd
      exact hmono a q ndo hndo (by rw [← hpar]; exact hq)
    · intro a nd hnd
      obtain ⟨ndo, hndo, hpar, _, _⟩ := hF a nd hnd
      rw [hpar]
      exact hroot a ndo hndo
    · intro a nd hnd hch0
      obtain ⟨ndo, hndo, hpar, hch, hvis⟩ := hF a nd hnd
      rcases hhc a ndo hndo (by rw [← hch]; exact hch0) with h1 | hmemP
      · omega
      · have hB2 := hB a ndo hndo hmemP
        rw [hnd] at hB2
        have heqn : nd = bump won ndo := Option.some.inj hB2
        rw [heqn]
        exact Nat.succ_le_succ (Nat.zero_le _)
  · intro nd0 hnd0
    exact hB 0 nd0 hnd0 hP0

theorem Inv_init {α : Type} (acts : List α) :
    Inv ([⟨none, none, [], acts, 0, 0⟩] : Tree α) := by
  refine ⟨by simp, ?_, ?_, ?_, ?_⟩
  · rintro (_|a) ci nd aa hnd hmem
    · obtain rfl : (⟨none, none, [], acts, 0, 0⟩ : NodeData α) = nd := by
        simpa using hnd
      simp at hmem
    · simp at hnd
  · rintro (_|a) q nd hnd hq
    · obtain rfl : (⟨none, none, [], acts, 0, 0⟩ : NodeData α) = nd := by
        simpa using hnd
      simp at hq
    · simp at hnd
  · rintro (_|a) nd hnd
    · obtain rfl : (⟨none, none, [], acts, 0, 0⟩ : NodeData α) = nd := by
        simpa using hnd
      simp
    · simp at hnd
  · rintro (_|a) nd hnd
    · obtain rfl : (⟨none, none, [], acts, 0, 0⟩ : NodeData α) = nd := by
        simpa using hnd
      intro h
      simp at h
    · simp at hnd

theorem expand_backprop_inv {σ α : Type} [DecidableEq α] (b : Board σ α)
    (t : Tree α) (hInv : Inv t) (i : ℕ) (hi : i < t.length)
    (nd : NodeData α) (hnd : t[i]? = some nd) (na : α) (ns : σ) (won : Bool)
    (te : Tree α)
    (hshape : te = modifyAt t i (fun m =>
        { m with
            untried_actions := m.untried_actions.erase na,
            child_nodes := dictUpd m.child_nodes na t.length })
      ++ [⟨some i, some na, [], b.legal_actions ns, 0, 0⟩]) :
    Inv (backpropagate te.length te (some t.length) won)
    ∧ ∀ nd0 : NodeData α, t[0]? = some nd0 →
        ∃ nd0', (backpropagate te.length te (some t.length) won)[0]?
            = some nd0' ∧ nd0'.visits = nd0.visits + 1 := by
  have hL : 0 < t.length := hInv.nonempty
  have hlen : te.length = t.length + 1 := by
    rw [hshape]
    simp [modifyAt_length]
  have hte : ∀ j, te[j]? =
      if j < t.length then (if i = j then (t[j]?).map (fun m =>
        { m with
            untried_actions := m.untried_actions.erase na,
            child_nodes := dictUpd m.child_nodes na t.length }) else t[j]?)
      else if j = t.length
        then some ⟨some i, some na, [], b.legal_actions ns, 0, 0⟩ else none := by
    intro j
    rw [hshape, getElem?_append_one, modifyAt_length]
    by_cases hj : j < t.length
    · rw [if_pos hj, if_pos hj, getElem?_modifyAt]
    · rw [if_neg hj, if_neg hj]
  have htei : te[i]? = some (⟨nd.parent, nd.parent_action,
      dictUpd nd.child_nodes na t.length, nd.untried_actions.erase na,
      nd.visits, nd.wins⟩ : NodeData α) := by
    rw [hte i, if_pos hi, if_pos rfl, hnd]
    rfl
  have hteL : te[t.length]?
      = some ⟨some i, some na, [], b.legal_actions ns, 0, 0⟩ := by
    rw [hte t.length, if_neg (lt_irrefl _), if_pos rfl]
  have hmono_te : ∀ (a q : ℕ) (nd2 : NodeData α),
      te[a]? = some nd2 → nd2.parent = some q → q < a := by
    intro a q nd2 h hq
    rw [hte a] at h
    by_cases ha : a < t.length
    · rw [if_pos ha] at h
      by_cases hia : i = a
      · rw [if_pos hia] at h
        cases ht : t[a]? with
        | none => rw [ht] at h; simp at h
        | some ndo =>
          rw [ht] at h
          simp only [Option.map_some', Option.some.injEq] at h
          refine hInv.parent_lt a q ndo ht ?_
          rw [← h] at hq
          exact hq
      · rw [if_neg hia] at h
        exact hInv.parent_lt a q nd2 h hq
    · rw [if_neg ha] at h
      by_cases haL : a = t.length
      · rw [if_pos haL] at h
        obtain rfl : (⟨some i, some na, [], b.legal_actions ns, 0, 0⟩
            : NodeData α) = nd2 := by simpa using h
        have hqi : i = q := by simpa using hq
        omega
      · rw [if_neg haL] at h
        simp at h
  have hroot_te : ∀ (a : ℕ) (nd2 : NodeData α),
      te[a]? = some nd2 → (nd2.parent = none ↔ a = 0) := by
    intro a nd2 h
    rw [hte a] at h
    by_cases ha : a < t.length
    · rw [if_pos ha] at h
      by_cases hia : i = a
      · rw [if_pos hia] at h
        cases ht : t[a]? with
        | none => rw [ht] at h; simp at h
        | some ndo =>
          rw [ht] at h
          simp only [Option.map_some', Option.some.injEq] at h
          rw [← h]
          exact hInv.root_iff a ndo ht
      · rw [if_neg hia] at h
        exact hInv.root_iff a nd2 h
    · rw [if_neg ha] at h
      by_cases haL : a = t.length
      · rw [if_pos haL] at h
        obtain rfl : (⟨some i, some na, [], b.legal_actions ns, 0, 0⟩
            : NodeData α) = nd2 := by simpa using h
        constructor
        · intro hc; simp at hc
        · intro hc; omega
      · rw [if_neg haL] at h
        simp at h
  have hLP : t.length ∈ bpPath te.length te (some t.length) :=
    bpPath_head_mem te t.length te.length _ hteL (by omega)
  have hiP : i ∈ bpPath te.length te (some t.length) := by
    rw [hlen, bpPath_cons_eq t.length te t.length _ hteL]
    refine List.mem_cons_of_mem _ ?_
    exact bpPath_head_mem te i t.length _ htei hL
  have hcw_te : ∀ (a ci : ℕ) (nd2 : NodeData α) (aa : α),
      te[a]? = some nd2 → (aa, ci) ∈ nd2.child_nodes →
      a < ci ∧ ∃ cd, te[ci]? = some cd ∧ cd.parent = some a ∧
        (1 ≤ cd.visits ∨ ci ∈ bpPath te.length te (some t.length)) := by
    intro a ci nd2 aa h hmem
    rw [hte a] at h
    by_cases ha : a < t.length
    · rw [if_pos ha] at h
      by_cases hia : i = a
      · rw [if_pos hia] at h
        rw [← hia, hnd] at h
        simp only [Option.map_some', Option.some.injEq] at h
        rw [← h] at hmem
        have hmem2 : (aa, ci) ∈ dictUpd nd.child_nodes na t.length := hmem
        rcases mem_dictUpd nd.child_nodes na t.length (aa, ci) hmem2 with
          hold | hnew
        · obtain ⟨hlt, cd, hcd, hcdp, hcdv⟩ :=
            hInv.child_wf i ci nd aa hnd hold
          have hciL : ci < t.length := (List.getElem?_eq_some.mp hcd).1
          have hci_ne : ¬ i = ci := by omega
          have hteci : te[ci]? = some cd := by
            rw [hte ci, if_pos hciL, if_neg hci_ne, hcd]
          refine ⟨by omega, cd, hteci, by rw [hcdp, hia], Or.inl hcdv⟩
        · obtain ⟨haa, hcieq⟩ : aa = na ∧ ci = t.length := by simpa using hnew
          subst hcieq
          refine ⟨by omega, ⟨some i, some na, [], b.legal_actions ns, 0, 0⟩,
            hteL, ?_, Or.inr hLP⟩
          show some i = some a
          rw [hia]
      · rw [if_neg hia] at h
        obtain ⟨hlt, cd, hcd, hcdp, hcdv⟩ :=
          hInv.child_wf a ci nd2 aa h hmem
        have hciL : ci < t.length := (List.getElem?_eq_some.mp hcd).1
        by_cases hci : i = ci
        · have heqn : nd = cd := by
            rw [← hci] at hcd
            rw [hnd] at hcd
            exact Option.some.inj hcd
          have hteci : te[ci]? = some (⟨nd.parent, nd.parent_action,
              dictUpd nd.child_nodes na t.length,
              nd.untried_actions.erase na, nd.visits, nd.wins⟩
                : NodeData α) := by
            rw [← hci]
            exact htei
          refine ⟨hlt, _, hteci, ?_, Or.inl ?_⟩
          · show nd.parent = some a
            rw [heqn]
            exact hcdp
          · show 1 ≤ nd.visits
            rw [heqn]
            exact hcdv
        · have hteci : te[ci]? = some cd := by
            rw [hte ci, if_pos hciL, if_neg hci, hcd]
          exact ⟨hlt, cd, hteci, hcdp, Or.inl hcdv⟩
    · rw [if_neg ha] at h
      by_cases haL : a = t.length
      · rw [if_pos haL] at h
        obtain rfl : (⟨some i, some na, [], b.legal_actions ns, 0, 0⟩
            : NodeData α) = nd2 := by simpa using h
        simp at hmem
      · rw [if_neg haL] at h
        simp at h
  have hhc_te : ∀ (a : ℕ) (nd2 : NodeData α), te[a]? = some nd2 →
      nd2.child_nodes ≠ [] →
      (1 ≤ nd2.visits ∨ a ∈ bpPath te.length te (some t.length)) := by
    intro a nd2 h hch
    rw [hte a] at h
    by_cases ha : a < t.length
    · rw [if_pos ha] at h
      by_cases hia : i = a
      · exact Or.inr (by rw [← hia]; exact hiP)
      · rw [if_neg hia] at h
        exact Or.inl (hInv.haschild a nd2 h hch)
    · rw [if_neg ha] at h
      by_cases haL : a = t.length
      · rw [if_pos haL] at h
        obtain rfl : (⟨some i, some na, [], b.legal_actions ns, 0, 0⟩
            : NodeData α) = nd2 := by simpa using h
        simp at hch
      · rw [if_neg haL] at h
        simp at h
  have hgen := backprop_inv_general te t.length won (by omega) (by omega)
    hmono_te hroot_te hcw_te hhc_te
  refine ⟨hgen.1, ?_⟩
  intro nd0 hnd0
  by_cases hi0 : i = 0
  · have hte0 : te[0]? = some (⟨nd0.parent, nd0.parent_action,
        dictUpd nd0.child_nodes na t.length, nd0.untried_actions.erase na,
        nd0.visits, nd0.wins⟩ : NodeData α) := by
      rw [hte 0, if_pos hL, if_pos hi0, hnd0]
      rfl
    exact ⟨_, hgen.2 _ hte0, rfl⟩
  · have hte0 : te[0]? = some nd0 := by
      rw [hte 0, if_pos hL, if_neg hi0, hnd0]
    exact ⟨_, hgen.2 _ hte0, rfl⟩

theorem iteration_spec {σ α S ρ : Type} [DecidableEq α] [LinearOrder S]
    [Zero S] (scorer : ℕ → ℕ → ℕ → Bool → S) (b : Board σ α) (rng : ℕ → ℕ)
    (sim : ℕ → ρ → σ → Except Err (Bool × ℕ × ρ)) (bot : ℕ) (s0 : σ)
    (t : Tree α) (k : ℕ) (r : ρ) (hInv : Inv t) :
    ((∀ (k2 : ℕ) (r2 : ρ) (s2 : σ), sim k2 r2 s2 ≠ .error .ucbZeroVisit) →
      iteration scorer b rng sim bot s0 t k r ≠ .error .ucbZeroVisit)
    ∧ ∀ (t'' : Tree α) (k'' : ℕ) (r'' : ρ),
        iteration scorer b rng sim bot s0 t k r = .ok (t'', k'', r'') →
        Inv t'' ∧ ∀ nd0 : NodeData α, t[0]? = some nd0 →
          ∃ nd0', t''[0]? = some nd0' ∧ nd0'.visits = nd0.visits + 1 := by
  have htrav := traverse_nodes_spec scorer b bot t hInv (t.length + 1) 0 s0
    hInv.nonempty
  constructor
  · intro hsimne h
    unfold iteration at h
    split at h
    · rename_i e heq
      have he : e = Err.ucbZeroVisit := by simpa using h
      exact htrav.1 (by rw [heq, he])
    · rename_i i s heq
      split at h
      · rename_i e heq2
        have he : e = Err.ucbZeroVisit := by simpa using h
        rcases expand_leaf_err b rng t i s k e heq2 with h1 | h1 | h1 <;>
          simp [he] at h1
      · rename_i t' i' s' k' heq2
        split at h
        · rename_i e heq3
          have he : e = Err.ucbZeroVisit := by simpa using h
          exact hsimne k' r s' (by rw [heq3, he])
        · simp at h
  · intro t'' k'' r'' h
    unfold iteration at h
    split at h
    · simp at h
    · rename_i i s heq
      have hi : i < t.length := htrav.2 i s heq
      split at h
      · simp at h
      · rename_i t' i' s' k' heq2
        split at h
        · simp at h
        · rename_i won k2 r2 heq3
          obtain ⟨hteq, _, _⟩ : backpropagate t'.length t' (some i') won = t''
              ∧ k2 = k'' ∧ r2 = r'' := by simpa using h
          rcases expand_leaf_spec b rng t i s k t' i' s' k' heq2 with
            ⟨rfl, rfl, rfl, rfl⟩ |
            ⟨nd, na, ns, hnd, hna, hns, hend2, hunt2, hshape, hi', hs', hk'⟩
          · have hgen := backprop_inv_general t' i' won hInv.nonempty hi
              hInv.parent_lt hInv.root_iff
              (fun a ci nd aa hh hm => by
                obtain ⟨hlt, cd, hcd, hp, hv⟩ :=
                  hInv.child_wf a ci nd aa hh hm
                exact ⟨hlt, cd, hcd, hp, Or.inl hv⟩)
              (fun a nd hh hc => Or.inl (hInv.haschild a nd hh hc))
            rw [← hteq]
            refine ⟨hgen.1, ?_⟩
            intro nd0 hnd0
            exact ⟨bump won nd0, hgen.2 nd0 hnd0, rfl⟩
          · subst hi'
            have hexp := expand_backprop_inv b t hInv i hi nd hnd na ns won
              t' hshape
            rw [← hteq]
            exact hexp

theorem thinkLoop_ne {σ α S ρ : Type} [DecidableEq α] [LinearOrder S]
    [Zero S] (scorer : ℕ → ℕ → ℕ → Bool → S) (b : Board σ α) (rng : ℕ → ℕ)
    (sim : ℕ → ρ → σ → Except Err (Bool × ℕ × ρ)) (bot : ℕ) (s0 : σ)
    (hsim : ∀ (k : ℕ) (r : ρ) (s : σ), sim k r s ≠ .error .ucbZeroVisit) :
    ∀ (n : ℕ) (t : Tree α) (k : ℕ) (r : ρ), Inv t →
      thinkLoop scorer b rng sim bot s0 n t k r
        ≠ .error .ucbZeroVisit := by
  intro n
  induction n with
  | zero => intro t k r _ h; simp [thinkLoop] at h
  | succ n ih =>
    intro t k r hInv h
    rw [thinkLoop] at h
    split at h
    · rename_i e heq
      have he : e = Err.ucbZeroVisit := by simpa using h
      exact (iteration_spec scorer b rng sim bot s0 t k r hInv).1 hsim
        (by rw [heq, he])
    · rename_i t' k' r' heq
      have hInv' :=
        ((iteration_spec scorer b rng sim bot s0 t k r hInv).2
          t' k' r' heq).1
      exact ih t' k' r' hInv' h

theorem thinkLoop_visits {σ α S ρ : Type} [DecidableEq α] [LinearOrder S]
    [Zero S] (scorer : ℕ → ℕ → ℕ → Bool → S) (b : Board σ α) (rng : ℕ → ℕ)
    (sim : ℕ → ρ → σ → Except Err (Bool × ℕ × ρ)) (bot : ℕ) (s0 : σ) :
    ∀ (n : ℕ) (t : Tree α) (k : ℕ) (r : ρ), Inv t →
      ∀ (t' : Tree α) (k' : ℕ) (r' : ρ),
        thinkLoop scorer b rng sim bot s0 n t k r = .ok (t', k', r') →
        ∀ nd0 : NodeData α, t[0]? = some nd0 →
          ∃ nd0', t'[0]? = some nd0' ∧ nd0'.visits = nd0.visits + n := by
  intro n
  induction n with
  | zero =>
    intro t k r _ t' k' r' h nd0 hnd0
    obtain ⟨rfl, rfl, rfl⟩ : t = t' ∧ k = k' ∧ r = r' := by
      simpa [thinkLoop] using h
    exact ⟨nd0, hnd0, by omega⟩
  | succ n ih =>
    intro t k r hInv t' k' r' h nd0 hnd0
    rw [thinkLoop] at h
    split at h
    · simp at h
    · rename_i t2 k2 r2 heq
      obtain ⟨hInv2, hroot2⟩ :=
        (iteration_spec scorer b rng sim bot s0 t k r hInv).2 t2 k2 r2 heq
      obtain ⟨nd1, hnd1, hv1⟩ := hroot2 nd0 hnd0
      obtain ⟨nd2, hnd2, hv2⟩ := ih t2 k2 r2 hInv2 t' k' r' h nd1 hnd1
      exact ⟨nd2, hnd2, by omega⟩

/-! ### Claims C5 and C9 -/

/-- C5: during the search loop of think, the selection policy is never
evaluated on a zero-visit node: each child created by expansion is
backpropagated in the same iteration before any later ucb read, so the
whole search — with any scorer, for both the vanilla and the enhanced
simulation — can never fail with the division/log domain error of ucb (the
Err.ucbZeroVisit branch of ucbE is unreachable from thinkCore). -/
theorem c5_no_zero_visit_ucb :
    ∀ (σ α S : Type) (inst : DecidableEq α) (instS : LinearOrder S)
      (instZ : Zero S) (scorer : ℕ → ℕ → ℕ → Bool → S) (b : Board σ α)
      (rng : ℕ → ℕ) (rfuel n : ℕ) (s0 : σ),
      (thinkCore scorer b rng
          (fun bot k u s => Vanilla.sim b rng rfuel bot k u s) n () s0
        ≠ .error .ucbZeroVisit)
      ∧ ∀ tbl : Modified.Table α,
          thinkCore scorer b rng
              (fun bot k r s => Modified.sim b rng rfuel bot k r s) n tbl s0
            ≠ .error .ucbZeroVisit := by
  intro σ α S inst instS instZ scorer b rng rfuel n s0
  constructor
  · exact thinkLoop_ne scorer b rng _ _ s0
      (fun k u s => vanilla_sim_ne b rng rfuel _ k u s) n _ 0 ()
      (Inv_init _)
  · intro tbl
    exact thinkLoop_ne scorer b rng _ _ s0
      (fun k r s => modified_sim_ne b rng rfuel _ k r s) n _ 0 tbl
      (Inv_init _)

/-- C9: the iteration budgets are the constants 100 (vanilla) and 900
(enhanced), and whenever the fixed-budget loop of think completes without
an exception, the root's visit count equals the number of iterations —
every iteration's backpropagation reached the root exactly once. -/
theorem c9_root_visits :
    Vanilla.num_nodes = 100 ∧ Modified.num_nodes = 900 ∧
    ∀ (σ α S ρ : Type) (inst : DecidableEq α) (instS : LinearOrder S)
      (instZ : Zero S) (scorer : ℕ → ℕ → ℕ → Bool → S) (b : Board σ α)
      (rng : ℕ → ℕ) (sim : ℕ → ℕ → ρ → σ → Except Err (Bool × ℕ × ρ))
      (n : ℕ) (r0 : ρ) (s0 : σ),
      isOk (thinkCore scorer b rng sim n r0 s0) = true →
      rootVisitsAfter (thinkCore scorer b rng sim n r0 s0) = some n := by
  refine ⟨rfl, rfl, ?_⟩
  intro σ α S ρ inst instS instZ scorer b rng sim n r0 s0 hok
  cases h : thinkCore scorer b rng sim n r0 s0 with
  | error e => rw [h] at hok; simp [isOk] at hok
  | ok w =>
    obtain ⟨t', k', r'⟩ := w
    have h2 : thinkLoop scorer b rng (sim (b.current_player s0))
        (b.current_player s0) s0 n
        [⟨none, none, [], b.legal_actions s0, 0, 0⟩] 0 r0
        = .ok (t', k', r') := h
    obtain ⟨nd0', hnd0', hv⟩ := thinkLoop_visits scorer b rng
      (sim (b.current_player s0)) (b.current_player s0) s0 n
      [⟨none, none, [], b.legal_actions s0, 0, 0⟩] 0 r0
      (Inv_init _) t' k' r' h2
      ⟨none, none, [], b.legal_actions s0, 0, 0⟩ rfl
    simp only [rootVisitsAfter, hnd0']
    simp [hv]

/-- C9 witness: on a terminal-root adapter the 2-iteration loop succeeds
and leaves the root with 2 visits. -/
theorem c9_witness :
    isOk (thinkCore zeroScore TerminalBoard rng0
        (fun bot k u s => Vanilla.sim TerminalBoard rng0 3 bot k u s)
        2 () 0) = true
    ∧ rootVisitsAfter (thinkCore zeroScore TerminalBoard rng0
        (fun bot k u s => Vanilla.sim TerminalBoard rng0 3 bot k u s)
        2 () 0) = some 2 :=
  ⟨by decide,
    c9_root_visits.2.2 ℕ ℕ ℚ Unit (by infer_instance) (by infer_instance)
      (by infer_instance) zeroScore TerminalBoard rng0
      (fun bot k u s => Vanilla.sim TerminalBoard rng0 3 bot k u s) 2 () 0
      (by decide)⟩

end MCTS
